import Mathlib

/-!
The histogram-based random value sampler of `cmd/importer/stats.go`.

A shallow embedding of `getRandomBoundIdx`, `randInt`, `getValidPrefix`,
`getAvgLen` and `randString` of `cmd/importer/stats.go`, followed by the
properties of the specification stated over it.

Conventions of the embedding.

* Go `int64` / `int` values are `Int`.  The counts of a bucket come from the
  statistics file and may be any `int64`, so `bkt.Count - bkt.Repeat` is
  wrapped explicitly (`subInt64`).  Slice indexes and lengths are `Nat`, and
  sums and differences of lengths are exact: they are bounded by the size of
  the data in memory, and `avgLen` holds a value `getAvgLen` returned for a
  column length.
* A Go `string` is its sequence of bytes, a `List Nat` of values below 256;
  `uint8` arithmetic is taken modulo 256.
* The process-wide `math/rand` source is an explicit state `Rand` threaded
  through every function that draws from it.
* A call ends with a value, with a Go run-time panic, or with `log.Fatal`:
  the result type is `Except Abort _`.
-/

namespace Importer

/-! ## Outcomes and the random source -/

/-- The two ways a call ends without returning: a Go run-time panic (index out
of range, division by zero, `rand.Intn` on a non-positive bound) and the
process-ending `log.Fatal` / `log.Fatalf`. -/
inductive Abort where
  | panic
  | fatal
  deriving DecidableEq, Repr

/-- State of the `math/rand` source: `raw k` is the raw value behind the `k`-th
draw and `used` counts the draws made so far.  Quantifying over all states
quantifies over all outcomes of all draws. -/
structure Rand where
  raw : Nat → Nat
  used : Nat

/-- The raw value behind the next draw. -/
def Rand.peek (g : Rand) : Nat := g.raw g.used

/-- The source after one draw. -/
def Rand.advance (g : Rand) : Rand := ⟨g.raw, g.used + 1⟩

/-- The source whose every draw has raw value `k`. -/
def Rand.const (k : Nat) : Rand := ⟨fun _ => k, 0⟩

/-- Go standard library `rand.Intn(n)` (and `rand.Int63n`): panics when
`n <= 0`, otherwise consumes one draw and yields a value of `[0, n)`. -/
def Intn (n : Int) (g : Rand) : Except Abort (Int × Rand) :=
  if n ≤ 0 then .error .panic else .ok ((g.peek : Int) % n, g.advance)

/-- Modelled from the spec: the helper `randInt64(min, max)` of the importer is
not part of the sources at hand; the specification gives it as "a source of
uniform random integers over `[lo, hi]` inclusive".  One draw is consumed and
the value lies in `[lo, hi]`; over an empty interval there is no value to
return and the call panics. -/
def randInt64 (lo hi : Int) (g : Rand) : Except Abort (Int × Rand) :=
  if hi < lo then .error .panic
  else .ok (lo + (g.peek : Int) % (hi - lo + 1), g.advance)

/-- The `n` characters drawn by the helper `randString`, one draw each. -/
def randBytes : Nat → Rand → List Nat × Rand
  | 0, g => ([], g)
  | n + 1, g => ((g.peek % 256) :: (randBytes n g.advance).1, (randBytes n g.advance).2)

/-- Modelled from the spec: the helper `randString(n)` of the importer is not
part of the sources at hand; the specification gives it as "a source of uniform
random characters", of which `n` are appended.  A negative length panics (as
`make([]byte, n)` does). -/
def randString (n : Int) (g : Rand) : Except Abort (List Nat × Rand) :=
  if n < 0 then .error .panic else .ok (randBytes n.toNat g)

/-! ## Data model -/

/-- Wrap-around of a mathematical integer into the `int64` range. -/
def wrapInt64 (x : Int) : Int := (x + 2 ^ 63) % 2 ^ 64 - 2 ^ 63

/-- Go `a - b` on `int64`. -/
def subInt64 (a b : Int) : Int := wrapInt64 (a - b)

/-- The value fits `int64`. -/
def isInt64 (x : Int) : Prop := -(2 ^ 63) ≤ x ∧ x < 2 ^ 63

/-- `statistics.Bucket`: cumulative row count and repeat count of the upper
bound, both `int64`. -/
structure Bucket where
  Count : Int
  Repeat : Int
  deriving DecidableEq, Repr

/-- One row of the single-column chunk `Histogram.Bounds`, given by what its
accessors return: `GetInt64(0)` and `GetString(0)` (bytes). -/
structure Row where
  GetInt64 : Int
  GetString : List Nat
  deriving DecidableEq, Repr

/-- The importer's `histogram`: the embedded `stats.Histogram` (of which the
sampler reads `Buckets` and `Bounds`), the index pointer (`none` is `nil`) and
the memoized `avgLen`. -/
structure histogram where
  Buckets : List Bucket
  Bounds : List Row
  index : Option Unit
  avgLen : Int

/-- `h.Bounds.GetRow(idx)` followed by a column read: reading past the rows of
the chunk panics. -/
def GetRow (c : List Row) (idx : Nat) : Except Abort Row :=
  match c.get? idx with
  | some r => .ok r
  | none => .error .panic

/-! ## getRandomBoundIdx -/

/-- The loop `for i, bkt := range h.Buckets` of `getRandomBoundIdx`, entered at
index `i` with the buckets from `i` on, together with the trailing `return 0`. -/
def scanBuckets (randCnt : Int) : List Bucket → Nat → Nat
  | [], _ => 0
  | bkt :: rest, i =>
    if bkt.Count ≥ randCnt then
      if subInt64 bkt.Count bkt.Repeat > randCnt then 2 * i else 2 * i + 1
    else scanBuckets randCnt rest (i + 1)

/-- `func (h *histogram) getRandomBoundIdx() int`. -/
def histogram.getRandomBoundIdx (h : histogram) (g : Rand) : Except Abort (Nat × Rand) :=
  match h.Buckets.getLast? with
  | none => .error .panic
  | some last => do
    let cnt := last.Count
    let (randCnt, g1) ← randInt64 0 cnt g
    pure (scanBuckets randCnt h.Buckets 0, g1)

/-! ## randInt -/

/-- `func (h *histogram) randInt() int64`. -/
def histogram.randInt (h : histogram) (g : Rand) : Except Abort (Int × Rand) := do
  let (idx, g1) ← h.getRandomBoundIdx g
  if idx % 2 = 0 then
    let lower ← GetRow h.Bounds idx
    let upper ← GetRow h.Bounds (idx + 1)
    randInt64 lower.GetInt64 upper.GetInt64 g1
  else
    let r ← GetRow h.Bounds idx
    pure (r.GetInt64, g1)

/-! ## getValidPrefix -/

/-- Continuation byte of UTF-8 (`locb <= b && b <= hicb`). -/
def isCont (b : Nat) : Bool := 0x80 ≤ b && b ≤ 0xBF

/-- Number of bytes by which Go's `for i := range s` advances from a position
whose remaining bytes are `s` (the Go run-time `decoderune`): one byte for
ASCII and for every ill-formed sequence (which decodes to U+FFFD), otherwise
the length of the well-formed UTF-8 sequence starting there.  `b % 32` is
`b & mask2`, `b % 16` is `b & mask3`, `b % 8` is `b & mask4` and `b % 64` is
`b & maskx`. -/
def runeLen : List Nat → Nat
  | [] => 1
  | b0 :: rest =>
    if b0 < 0x80 then 1
    else if 0xC0 ≤ b0 ∧ b0 < 0xE0 then
      match rest with
      | b1 :: _ =>
        if isCont b1 ∧ 0x7F < (b0 % 32) * 64 + b1 % 64 then 2 else 1
      | _ => 1
    else if 0xE0 ≤ b0 ∧ b0 < 0xF0 then
      match rest with
      | b1 :: b2 :: _ =>
        if isCont b1 ∧ isCont b2 ∧
            0x7FF < (b0 % 16) * 4096 + (b1 % 64) * 64 + b2 % 64 ∧
            ¬ (0xD800 ≤ (b0 % 16) * 4096 + (b1 % 64) * 64 + b2 % 64 ∧
               (b0 % 16) * 4096 + (b1 % 64) * 64 + b2 % 64 ≤ 0xDFFF) then 3 else 1
      | _ => 1
    else if 0xF0 ≤ b0 ∧ b0 < 0xF8 then
      match rest with
      | b1 :: b2 :: b3 :: _ =>
        if isCont b1 ∧ isCont b2 ∧ isCont b3 ∧
            0xFFFF < (b0 % 8) * 262144 + (b1 % 64) * 4096 + (b2 % 64) * 64 + b3 % 64 ∧
            (b0 % 8) * 262144 + (b1 % 64) * 4096 + (b2 % 64) * 64 + b3 % 64 ≤ 0x10FFFF
        then 4 else 1
      | _ => 1
    else 1

/-- The loop `for i := range lower` of `getValidPrefix` with its trailing
`return lower`.  `rest` holds the bytes of `lower` from byte offset `i` on and
`skip` counts the bytes still to pass before the next offset the range loop
visits (the bytes inside a multi-byte character are never an `i`). -/
def getValidPrefixLoop (lower upper : List Nat) :
    List Nat → Nat → Nat → Rand → Except Abort (List Nat × Rand)
  | [], _, _, g => .ok (lower, g)
  | _ :: rest, i, skip + 1, g => getValidPrefixLoop lower upper rest (i + 1) skip g
  | b :: rest, i, 0, g =>
    if i ≥ upper.length then .error .fatal
    else if b ≠ upper.getD i 0 then do
      let (k, g1) ← Intn (((upper.getD i 0 + 256 - b) % 256 : Nat) : Int) g
      let randCh := (k.toNat % 256 + b) % 256
      pure (lower.take i ++ [randCh], g1)
    else getValidPrefixLoop lower upper rest (i + 1) (runeLen (b :: rest) - 1) g

/-- `func getValidPrefix(lower, upper string) string`. -/
def getValidPrefix (lower upper : List Nat) (g : Rand) : Except Abort (List Nat × Rand) :=
  getValidPrefixLoop lower upper lower 0 0 g

/-! ## getAvgLen -/

/-- `func (h *histogram) getAvgLen(maxLen int) int`.  The loop adds the length
of the string of every row of `Bounds`; `totalLen / l` panics when the chunk
has no row. -/
def histogram.getAvgLen (h : histogram) (maxLen : Int) : Except Abort Int :=
  let l : Int := h.Bounds.length
  let totalLen : Int := h.Bounds.foldl (fun acc r => acc + (r.GetString.length : Int)) 0
  if l = 0 then .error .panic
  else
    let avg := Int.tdiv totalLen l
    let avg := if avg > maxLen then maxLen else avg
    let avg := if avg = 0 then 1 else avg
    .ok avg

/-! ## randString -/

/-- `func (h *histogram) randString() string`. -/
def histogram.randString (h : histogram) (g : Rand) : Except Abort (List Nat × Rand) := do
  let (idx, g1) ← h.getRandomBoundIdx g
  if idx % 2 = 0 then
    let lower ← GetRow h.Bounds idx
    let upper ← GetRow h.Bounds (idx + 1)
    let (pfx, g2) ← getValidPrefix lower.GetString upper.GetString g1
    let restLen : Int := h.avgLen - pfx.length
    if restLen > 0 then
      let (more, g3) ← Importer.randString restLen g2
      pure (pfx ++ more, g3)
    else
      pure (pfx, g2)
  else
    let r ← GetRow h.Bounds idx
    pure (r.GetString, g1)


/-! ## Vocabulary of the specification -/

/-- The integer boundary `boundary[k]` of the histogram (0 past the end). -/
def boundaryInt (h : histogram) (k : Nat) : Int :=
  ((h.Bounds.get? k).map Row.GetInt64).getD 0

/-- Well-formed integer histogram: buckets non-empty, two boundaries per
bucket, each bucket's lower bound at most its upper bound, and every upper
bound at most the next bucket's lower bound. -/
def wellFormedInt (h : histogram) : Prop :=
  h.Buckets ≠ [] ∧ h.Bounds.length = 2 * h.Buckets.length ∧
  (∀ i < h.Buckets.length, boundaryInt h (2 * i) ≤ boundaryInt h (2 * i + 1)) ∧
  (∀ i < h.Buckets.length, i + 1 < h.Buckets.length →
    boundaryInt h (2 * i + 1) ≤ boundaryInt h (2 * i + 2))

instance (h : histogram) : Decidable (wellFormedInt h) := by
  unfold wellFormedInt; infer_instance

/-- Go `a < b` on strings: byte-wise lexicographic order, a proper prefix being
smaller than the string it starts. -/
def strLt : List Nat → List Nat → Bool
  | _, [] => false
  | [], _ :: _ => true
  | a :: as, b :: bs => if a < b then true else if b < a then false else strLt as bs

/-- Go `a <= b` on strings. -/
def strLe (a b : List Nat) : Bool := !strLt b a

/-- Every element is a byte. -/
def isBytes (s : List Nat) : Prop := ∀ b ∈ s, b < 256

/-- Every byte is a single-byte (ASCII) character. -/
def isASCII (s : List Nat) : Prop := ∀ b ∈ s, b < 0x80

instance (s : List Nat) : Decidable (isBytes s) := by
  unfold isBytes; infer_instance

instance (s : List Nat) : Decidable (isASCII s) := by
  unfold isASCII; infer_instance

/-- The bucket `Buckets[i]` (a bucket of zero counts past the end). -/
def bucketAt (bs : List Bucket) (i : Nat) : Bucket := bs.getD i ⟨0, 0⟩

/-- The cumulative count before bucket `i`: `Buckets[i-1].Count`, and 0 before
the first bucket. -/
def prevCount (bs : List Bucket) (i : Nat) : Int :=
  if i = 0 then 0 else (bucketAt bs (i - 1)).Count

instance (x : Int) : Decidable (isInt64 x) := by
  unfold isInt64; infer_instance

/-- Well-formed bucket sequence with total count `total`: non-empty, counts
within `int64`, cumulative counts non-decreasing from 0 and ending at
`total > 0`, and every repeat count between 0 and the number of rows of its
bucket. -/
def wellFormedBuckets (bs : List Bucket) (total : Int) : Prop :=
  (bs.getLast?.map Bucket.Count = some total) ∧ 0 < total ∧
  (∀ i < bs.length, isInt64 (bucketAt bs i).Count) ∧
  (∀ i < bs.length, prevCount bs i ≤ (bucketAt bs i).Count) ∧
  (∀ i < bs.length, 0 ≤ (bucketAt bs i).Repeat ∧
    (bucketAt bs i).Repeat ≤ (bucketAt bs i).Count - prevCount bs i)

instance (bs : List Bucket) (total : Int) : Decidable (wellFormedBuckets bs total) := by
  unfold wellFormedBuckets; infer_instance

/-- Number of draws `r` of `[0, total]` that the scan of `getRandomBoundIdx`
maps to `2*i+1`, the exact-upper-bound outcome of bucket `i`. -/
def upperBoundHits (bs : List Bucket) (total : Int) (i : Nat) : Nat :=
  ((Finset.range (total + 1).toNat).filter
    (fun r : Nat => scanBuckets (r : Int) bs 0 = 2 * i + 1)).card

/-- The two-bucket integer histogram used to instantiate the theorems:
buckets (Count=10, Repeat=2) over `[0, 5]` and (Count=20, Repeat=3) over
`[6, 9]`. -/
def intHist : histogram :=
  ⟨[⟨10, 2⟩, ⟨20, 3⟩], [⟨0, []⟩, ⟨5, []⟩, ⟨6, []⟩, ⟨9, []⟩], none, 0⟩

/-- The two-bucket text histogram of the end-to-end scenario: buckets
(Count=10, Repeat=2) over "aaa".."aad" and (Count=20, Repeat=3) over
"aae".."aaz", with `avgLen = 3`. -/
def textHist : histogram :=
  ⟨[⟨10, 2⟩, ⟨20, 3⟩],
    [⟨0, [97, 97, 97]⟩, ⟨0, [97, 97, 100]⟩, ⟨0, [97, 97, 101]⟩, ⟨0, [97, 97, 122]⟩], none, 3⟩

/-! ## decodeInt and further vocabulary -/

/-- `func (h *histogram) decodeInt(row *chunk.Row) int64`.  The decoder
`codec.DecodeInt` is a parameter (`none` is its error result); `row.GetBytes(0)`
yields the bytes that `GetString(0)` yields as a string. -/
def histogram.decodeInt (decode : List Nat → Option Int) (h : histogram) (row : Row) :
    Except Abort Int :=
  match h.index with
  | none => .ok row.GetInt64
  | some _ =>
    match decode row.GetString with
    | none => .error .fatal
    | some result => .ok result

/-- The loop of `getRandomBoundIdx` alone: `some idx` when a `return` inside the
loop is taken, `none` when the loop runs out of buckets and control reaches the
trailing `return 0`. -/
def scanBucketsLoop (randCnt : Int) : List Bucket → Nat → Option Nat
  | [], _ => none
  | bkt :: rest, i =>
    if bkt.Count ≥ randCnt then
      if subInt64 bkt.Count bkt.Repeat > randCnt then some (2 * i) else some (2 * i + 1)
    else scanBucketsLoop randCnt rest (i + 1)

/-- An index-column histogram: one bucket (Count=10, Repeat=10) whose two
boundaries carry the 8 bytes 80 00 00 00 00 00 00 03 and
80 00 00 00 00 00 00 05; as the value of `GetInt64(0)` each row is given the
number those 8 bytes make when read as a native little-endian integer. -/
def idxHist : histogram :=
  ⟨[⟨10, 10⟩],
    [⟨216172782113783936, [0x80, 0, 0, 0, 0, 0, 0, 3]⟩,
     ⟨360287970189639808, [0x80, 0, 0, 0, 0, 0, 0, 5]⟩], some (), 0⟩

/-! ## Basic facts about the random source -/

theorem randInt64_ok (lo hi : Int) (g : Rand) (hle : lo ≤ hi) :
    randInt64 lo hi g = .ok (lo + (g.peek : Int) % (hi - lo + 1), g.advance) := by
  simp [randInt64, not_lt.mpr hle]

theorem randInt64_bounds (lo hi v : Int) (g g1 : Rand)
    (hdraw : randInt64 lo hi g = .ok (v, g1)) : lo ≤ v ∧ v ≤ hi ∧ g1 = g.advance := by
  unfold randInt64 at hdraw
  split at hdraw
  · cases hdraw
  · rename_i hlt
    simp only [Except.ok.injEq, Prod.mk.injEq] at hdraw
    obtain ⟨hv, hg⟩ := hdraw
    have hpos : (0 : Int) < hi - lo + 1 := by omega
    have h1 := Int.emod_nonneg (g.peek : Int) (ne_of_gt hpos)
    have h2 := Int.emod_lt_of_pos (g.peek : Int) hpos
    refine ⟨by omega, by omega, hg.symm⟩

/-- Every value of `[lo, hi]` is the outcome of the draw for some state of the
source. -/
theorem randInt64_const (lo hi v : Int) (h1 : lo ≤ v) (h2 : v ≤ hi) :
    randInt64 lo hi (Rand.const (v - lo).toNat) = .ok (v, (Rand.const (v - lo).toNat).advance) := by
  rw [randInt64_ok lo hi _ (by omega)]
  have hcast : (((Rand.const (v - lo).toNat).peek : Nat) : Int) = v - lo := by
    simp only [Rand.peek, Rand.const]
    exact Int.toNat_of_nonneg (by omega)
  rw [hcast, Int.emod_eq_of_lt (by omega) (by omega)]
  simp

/-! ## getRandomBoundIdx -/

theorem subInt64_eq (a b : Int) (hfit : isInt64 (a - b)) : subInt64 a b = a - b := by
  unfold isInt64 at hfit
  unfold subInt64 wrapInt64
  rw [Int.emod_eq_of_lt (by omega) (by omega)]
  omega

/-- The scan stops at the least index whose bucket has `Count >= randCnt`,
provided some bucket has. -/
theorem scanBuckets_least (r : Int) (bs : List Bucket) (k : Nat)
    (hex : ∃ b ∈ bs, r ≤ b.Count) :
    ∃ i b, bs.get? i = some b ∧ r ≤ b.Count ∧
      (∀ j c, j < i → bs.get? j = some c → c.Count < r) ∧
      scanBuckets r bs k =
        if r < subInt64 b.Count b.Repeat then 2 * (k + i) else 2 * (k + i) + 1 := by
  induction bs generalizing k with
  | nil => simp at hex
  | cons b rest ih =>
    by_cases hb : r ≤ b.Count
    · refine ⟨0, b, rfl, hb, ?_, ?_⟩
      · intro j c hj; omega
      · simp [scanBuckets, hb]
    · have hex2 : ∃ c ∈ rest, r ≤ c.Count := by
        obtain ⟨c, hc, hrc⟩ := hex
        rcases List.mem_cons.mp hc with rfl | hc
        · exact absurd hrc hb
        · exact ⟨c, hc, hrc⟩
      obtain ⟨i, c, hget, hge, hleast, hscan⟩ := ih (k + 1) hex2
      refine ⟨i + 1, c, by simpa using hget, hge, ?_, ?_⟩
      · intro j d hj hjd
        cases j with
        | zero =>
          simp at hjd
          subst hjd
          omega
        | succ j => exact hleast j d (by omega) (by simpa using hjd)
      · simp only [scanBuckets, ge_iff_le, hb, if_false]
        rw [hscan]
        have e : k + 1 + i = k + (i + 1) := by omega
        rw [e]

theorem getRandomBoundIdx_eq (h : histogram) (g g1 : Rand) (last : Bucket) (r : Int)
    (hlast : h.Buckets.getLast? = some last)
    (hdraw : randInt64 0 last.Count g = .ok (r, g1)) :
    h.getRandomBoundIdx g = .ok (scanBuckets r h.Buckets 0, g1) := by
  simp [histogram.getRandomBoundIdx, hlast, hdraw, bind, Except.bind, pure, Except.pure]

/-- C1. `getRandomBoundIdx` with the draw made explicit: on a non-empty bucket
sequence, when the draw `randInt64(0, cnt)` yields `r` with
`0 <= r <= Count` of the last bucket, there is a least index `i` with
`Buckets[i].Count >= r`, and the call returns `2*i` when
`r < Buckets[i].Count - Buckets[i].Repeat` and `2*i+1` otherwise.  The
difference is the `int64` subtraction of the code, which is the mathematical
difference whenever that fits `int64`. -/
theorem getRandomBoundIdx_least_bucket (h : histogram) (g : Rand) (last : Bucket) (r : Int)
    (hlast : h.Buckets.getLast? = some last)
    (hr0 : 0 ≤ r) (hr1 : r ≤ last.Count)
    (hdraw : randInt64 0 last.Count g = .ok (r, g.advance)) :
    ∃ i b, h.Buckets.get? i = some b ∧ r ≤ b.Count ∧
      (∀ j c, j < i → h.Buckets.get? j = some c → c.Count < r) ∧
      h.getRandomBoundIdx g =
        .ok (if r < subInt64 b.Count b.Repeat then 2 * i else 2 * i + 1, g.advance) ∧
      (isInt64 (b.Count - b.Repeat) → subInt64 b.Count b.Repeat = b.Count - b.Repeat) := by
  have _ := hr0
  have hmem : last ∈ h.Buckets := List.mem_of_getLast?_eq_some hlast
  obtain ⟨i, b, hget, hge, hleast, hscan⟩ :=
    scanBuckets_least r h.Buckets 0 ⟨last, hmem, hr1⟩
  refine ⟨i, b, hget, hge, hleast, ?_, subInt64_eq _ _⟩
  rw [getRandomBoundIdx_eq h g g.advance last r hlast hdraw, hscan]
  simp

/-- C1 at the histogram (Count=10, Repeat=2), (Count=20, Repeat=3) with the
draw `r = 9`: bucket 0 is selected and `9 >= 10 - 2` gives index 1. -/
theorem getRandomBoundIdx_least_bucket_witness :
    ∃ i b, (⟨[⟨10, 2⟩, ⟨20, 3⟩], [], none, 3⟩ : histogram).Buckets.get? i = some b ∧
      (9 : Int) ≤ b.Count ∧
      (∀ j c, j < i →
        (⟨[⟨10, 2⟩, ⟨20, 3⟩], [], none, 3⟩ : histogram).Buckets.get? j = some c →
        c.Count < 9) ∧
      (⟨[⟨10, 2⟩, ⟨20, 3⟩], [], none, 3⟩ : histogram).getRandomBoundIdx (Rand.const 9) =
        .ok (if (9 : Int) < subInt64 b.Count b.Repeat then 2 * i else 2 * i + 1,
          (Rand.const 9).advance) ∧
      (isInt64 (b.Count - b.Repeat) → subInt64 b.Count b.Repeat = b.Count - b.Repeat) :=
  getRandomBoundIdx_least_bucket ⟨[⟨10, 2⟩, ⟨20, 3⟩], [], none, 3⟩ (Rand.const 9) ⟨20, 3⟩ 9
    rfl (by decide) (by decide) (randInt64_const 0 20 9 (by decide) (by decide))

/-! ## randInt -/

theorem GetRow_eq_ok (c : List Row) (idx : Nat) (r : Row) (hget : c.get? idx = some r) :
    GetRow c idx = .ok r := by
  unfold GetRow
  rw [hget]

theorem GetRow_lt (c : List Row) (idx : Nat) (hlt : idx < c.length) :
    ∃ r, c.get? idx = some r ∧ GetRow c idx = .ok r := by
  obtain ⟨r, hr⟩ : ∃ r, c.get? idx = some r := by
    cases hc : c.get? idx with
    | none => exact absurd hlt (by simpa [List.get?_eq_none] using hc)
    | some r => exact ⟨r, rfl⟩
  exact ⟨r, hr, GetRow_eq_ok c idx r hr⟩

/-- The index the scan returns addresses a bucket of the sequence: it is below
twice the number of buckets, and an even index leaves room for the upper bound
next to it. -/
theorem scanBuckets_range (r : Int) (bs : List Bucket) (k : Nat) (hne : bs ≠ []) :
    scanBuckets r bs k < 2 * (k + bs.length) ∧
      (scanBuckets r bs k % 2 = 0 → scanBuckets r bs k + 1 < 2 * (k + bs.length)) := by
  induction bs generalizing k with
  | nil => exact absurd rfl hne
  | cons b rest ih =>
    simp only [scanBuckets, List.length_cons]
    split
    · split <;> constructor <;> intros <;> omega
    · cases rest with
      | nil => simp [scanBuckets]; omega
      | cons c rest2 =>
        have := ih (k + 1) (by simp)
        simp only [List.length_cons] at this ⊢
        constructor
        · omega
        · intro he; have := this.2 he; omega

theorem randInt_odd (h : histogram) (g g1 : Rand) (idx : Nat) (r : Row)
    (hsel : h.getRandomBoundIdx g = .ok (idx, g1)) (hodd : idx % 2 = 1)
    (hr : h.Bounds.get? idx = some r) : h.randInt g = .ok (r.GetInt64, g1) := by
  have hne : ¬ idx % 2 = 0 := by omega
  simp [histogram.randInt, hsel, bind, Except.bind, pure, Except.pure, hne,
    GetRow_eq_ok _ _ _ hr]

theorem randInt_even (h : histogram) (g g1 : Rand) (idx : Nat) (lo up : Row)
    (hsel : h.getRandomBoundIdx g = .ok (idx, g1)) (heven : idx % 2 = 0)
    (hlo : h.Bounds.get? idx = some lo) (hup : h.Bounds.get? (idx + 1) = some up) :
    h.randInt g = randInt64 lo.GetInt64 up.GetInt64 g1 := by
  simp [histogram.randInt, hsel, bind, Except.bind, heven,
    GetRow_eq_ok _ _ _ hlo, GetRow_eq_ok _ _ _ hup]

/-- C3. Branch behaviour of `randInt`, for the index `idx` the selector
returned: an odd `idx` returns exactly `boundary[idx]` and leaves the random
source as the selector left it (no range draw); an even `idx` returns what the
range draw over `[boundary[idx], boundary[idx+1]]` returns, a value `v` with
`boundary[idx] <= v <= boundary[idx+1]` obtained with one further draw. -/
theorem randInt_branches (h : histogram) (g g1 : Rand) (idx : Nat)
    (hsel : h.getRandomBoundIdx g = .ok (idx, g1)) :
    (idx % 2 = 1 → ∀ r, h.Bounds.get? idx = some r →
      h.randInt g = .ok (r.GetInt64, g1)) ∧
    (idx % 2 = 0 → ∀ lo up, h.Bounds.get? idx = some lo → h.Bounds.get? (idx + 1) = some up →
      h.randInt g = randInt64 lo.GetInt64 up.GetInt64 g1 ∧
      (lo.GetInt64 ≤ up.GetInt64 →
        ∃ v, h.randInt g = .ok (v, g1.advance) ∧ lo.GetInt64 ≤ v ∧ v ≤ up.GetInt64)) := by
  constructor
  · intro hodd r hr
    exact randInt_odd h g g1 idx r hsel hodd hr
  · intro heven lo up hlo hup
    have heq := randInt_even h g g1 idx lo up hsel heven hlo hup
    refine ⟨heq, fun hle => ?_⟩
    rw [heq, randInt64_ok _ _ _ hle]
    obtain ⟨h1, h2, -⟩ := randInt64_bounds _ _ _ _ _ (randInt64_ok lo.GetInt64 up.GetInt64 g1 hle)
    exact ⟨_, rfl, h1, h2⟩

/-- C3 at `intHist`: the draw 9 selects index 1 and `randInt` returns the
upper bound 5 of bucket 0 without a further draw. -/
theorem randInt_branches_witness :
    intHist.getRandomBoundIdx (Rand.const 9) = .ok (1, (Rand.const 9).advance) ∧
    intHist.randInt (Rand.const 9) = .ok (5, (Rand.const 9).advance) :=
  ⟨rfl, (randInt_branches intHist (Rand.const 9) (Rand.const 9).advance 1 rfl).1 rfl ⟨5, []⟩ rfl⟩

theorem boundaryInt_get (h : histogram) (k : Nat) (r : Row) (hget : h.Bounds.get? k = some r) :
    boundaryInt h k = r.GetInt64 := by
  unfold boundaryInt
  rw [hget]
  rfl

/-- In a well-formed integer histogram the boundaries ascend along the whole
flat sequence. -/
theorem boundaryInt_mono (h : histogram) (hwf : wellFormedInt h) (k m : Nat)
    (hkm : k ≤ m) (hm : m < 2 * h.Buckets.length) : boundaryInt h k ≤ boundaryInt h m := by
  obtain ⟨-, -, hin, hacross⟩ := hwf
  have hstep : ∀ j, j + 1 < 2 * h.Buckets.length → boundaryInt h j ≤ boundaryInt h (j + 1) := by
    intro j hj
    rcases Nat.even_or_odd' j with ⟨i, rfl | rfl⟩
    · exact hin i (by omega)
    · exact hacross i (by omega) (by omega)
  induction m, hkm using Nat.le_induction with
  | base => exact le_refl _
  | succ n _ ih => exact le_trans (ih (by omega)) (hstep n hm)

/-- C2. Range containment of `randInt`: on a well-formed integer histogram,
whatever the random source yields, every value `randInt` returns lies between
`boundary[0]` and `boundary[2*len(buckets)-1]`; and it does return a value
whenever the total count is not negative (so that the selector draw over
`[0, totalCount]` exists). -/
theorem randInt_range (h : histogram) (g : Rand) (last : Bucket)
    (hwf : wellFormedInt h) (hlast : h.Buckets.getLast? = some last) :
    (∀ v g2, h.randInt g = .ok (v, g2) →
      boundaryInt h 0 ≤ v ∧ v ≤ boundaryInt h (2 * h.Buckets.length - 1)) ∧
    (0 ≤ last.Count → ∃ v g2, h.randInt g = .ok (v, g2)) := by
  have hne : h.Buckets ≠ [] := hwf.1
  have hlen : h.Bounds.length = 2 * h.Buckets.length := hwf.2.1
  have hpos : 0 < h.Buckets.length := List.length_pos.mpr hne
  -- what the call does once the selector draw has a value
  have key : ∀ r g1, randInt64 0 last.Count g = .ok (r, g1) →
      ∃ v g2, h.randInt g = .ok (v, g2) ∧
        boundaryInt h 0 ≤ v ∧ v ≤ boundaryInt h (2 * h.Buckets.length - 1) := by
    intro r g1 hdraw
    have hsel := getRandomBoundIdx_eq h g g1 last r hlast hdraw
    obtain ⟨hlt, hev⟩ := scanBuckets_range r h.Buckets 0 hne
    simp only [Nat.zero_add] at hlt hev
    generalize scanBuckets r h.Buckets 0 = idx at hsel hlt hev
    rcases Nat.mod_two_eq_zero_or_one idx with he | ho
    · obtain ⟨lo, hlo, -⟩ := GetRow_lt h.Bounds idx (by omega)
      obtain ⟨up, hup, -⟩ := GetRow_lt h.Bounds (idx + 1) (by have := hev he; omega)
      have hle : lo.GetInt64 ≤ up.GetInt64 := by
        rw [← boundaryInt_get h idx lo hlo, ← boundaryInt_get h (idx + 1) up hup]
        exact boundaryInt_mono h hwf idx (idx + 1) (by omega) (hev he)
      have hv := randInt_even h g g1 idx lo up hsel he hlo hup
      rw [randInt64_ok _ _ _ hle] at hv
      obtain ⟨h1, h2, -⟩ :=
        randInt64_bounds _ _ _ _ _ (randInt64_ok lo.GetInt64 up.GetInt64 g1 hle)
      refine ⟨_, _, hv, ?_, ?_⟩
      · refine le_trans ?_ h1
        rw [← boundaryInt_get h idx lo hlo]
        exact boundaryInt_mono h hwf 0 idx (by omega) (by omega)
      · refine le_trans h2 ?_
        rw [← boundaryInt_get h (idx + 1) up hup]
        exact boundaryInt_mono h hwf (idx + 1) _ (by have := hev he; omega) (by omega)
    · obtain ⟨r0, hr0, -⟩ := GetRow_lt h.Bounds idx (by omega)
      refine ⟨r0.GetInt64, g1, randInt_odd h g g1 idx r0 hsel ho hr0, ?_, ?_⟩
      · rw [← boundaryInt_get h idx r0 hr0]
        exact boundaryInt_mono h hwf 0 idx (by omega) (by omega)
      · rw [← boundaryInt_get h idx r0 hr0]
        exact boundaryInt_mono h hwf idx _ (by omega) (by omega)
  constructor
  · intro v g2 hret
    by_cases hcnt : 0 ≤ last.Count
    · obtain ⟨w, g3, hw, hb⟩ := key _ _ (randInt64_ok 0 last.Count g hcnt)
      rw [hw] at hret
      simp only [Except.ok.injEq, Prod.mk.injEq] at hret
      rw [← hret.1]
      exact hb
    · exfalso
      have hfail : randInt64 0 last.Count g = .error .panic := by
        simp [randInt64, lt_of_not_ge hcnt]
      simp [histogram.randInt, histogram.getRandomBoundIdx, hlast, hfail, bind,
        Except.bind] at hret
  · intro hcnt
    obtain ⟨w, g3, hw, -⟩ := key _ _ (randInt64_ok 0 last.Count g hcnt)
    exact ⟨w, g3, hw⟩

/-- C2 at `intHist` with every draw of raw value 3: index 0 is selected and the
range draw over `[0, 5]` gives 3, within `[0, 9]`. -/
theorem randInt_range_witness :
    wellFormedInt intHist ∧
    (∀ v g2, intHist.randInt (Rand.const 3) = .ok (v, g2) →
      boundaryInt intHist 0 ≤ v ∧ v ≤ boundaryInt intHist (2 * intHist.Buckets.length - 1)) ∧
    ((0 : Int) ≤ 20 → ∃ v g2, intHist.randInt (Rand.const 3) = .ok (v, g2)) :=
  ⟨by decide, randInt_range intHist (Rand.const 3) ⟨20, 3⟩ (by decide) rfl⟩

/-! ## randString -/

theorem randBytes_length (n : Nat) (g : Rand) : (randBytes n g).1.length = n := by
  induction n generalizing g with
  | zero => rfl
  | succ n ih => simp [randBytes, ih]

/-- C4. Branch behaviour of `randString`, for the index `idx` the selector
returned: an odd `idx` returns the string `boundary[idx]` verbatim; for an even
`idx`, with `p` the value of `getValidPrefix(boundary[idx], boundary[idx+1])`
and `restLength = avgLen - len(p)`, the result is `p` followed by exactly
`restLength` characters of the helper `randString` when `restLength > 0` and
exactly `p` otherwise; so the result has `p` as a prefix and length
`max(avgLen, len(p))`. -/
theorem randString_branches (h : histogram) (g g1 : Rand) (idx : Nat)
    (hsel : h.getRandomBoundIdx g = .ok (idx, g1)) :
    (idx % 2 = 1 → ∀ r, h.Bounds.get? idx = some r →
      h.randString g = .ok (r.GetString, g1)) ∧
    (idx % 2 = 0 → ∀ lo up p g2,
      h.Bounds.get? idx = some lo → h.Bounds.get? (idx + 1) = some up →
      getValidPrefix lo.GetString up.GetString g1 = .ok (p, g2) →
      (h.avgLen - p.length > 0 → ∃ more g3,
        Importer.randString (h.avgLen - p.length) g2 = .ok (more, g3) ∧
        (more.length : Int) = h.avgLen - p.length ∧
        h.randString g = .ok (p ++ more, g3)) ∧
      (¬ h.avgLen - p.length > 0 → h.randString g = .ok (p, g2)) ∧
      (∃ s g3, h.randString g = .ok (s, g3) ∧ p <+: s ∧
        (s.length : Int) = max h.avgLen p.length)) := by
  constructor
  · intro hodd r hr
    have hne : ¬ idx % 2 = 0 := by omega
    simp [histogram.randString, hsel, bind, Except.bind, pure, Except.pure, hne,
      GetRow_eq_ok _ _ _ hr]
  · intro heven lo up p g2 hlo hup hp
    have hpos : h.avgLen - p.length > 0 → ∃ more g3,
        Importer.randString (h.avgLen - p.length) g2 = .ok (more, g3) ∧
        (more.length : Int) = h.avgLen - p.length ∧
        h.randString g = .ok (p ++ more, g3) := by
      intro hrest
      have hdraw : Importer.randString (h.avgLen - p.length) g2 =
          .ok (randBytes (h.avgLen - p.length).toNat g2) := by
        simp [Importer.randString, not_lt.mpr (le_of_lt hrest)]
      refine ⟨(randBytes (h.avgLen - p.length).toNat g2).1,
        (randBytes (h.avgLen - p.length).toNat g2).2, hdraw, ?_, ?_⟩
      · rw [randBytes_length]
        exact Int.toNat_of_nonneg (le_of_lt hrest)
      · simp [histogram.randString, hsel, bind, Except.bind, pure, Except.pure, heven,
          GetRow_eq_ok _ _ _ hlo, GetRow_eq_ok _ _ _ hup, hp, hrest, hdraw]
    have hnon : ¬ h.avgLen - p.length > 0 → h.randString g = .ok (p, g2) := by
      intro hrest
      simp [histogram.randString, hsel, bind, Except.bind, pure, Except.pure, heven,
        GetRow_eq_ok _ _ _ hlo, GetRow_eq_ok _ _ _ hup, hp, hrest]
    refine ⟨hpos, hnon, ?_⟩
    by_cases hrest : h.avgLen - p.length > 0
    · obtain ⟨more, g3, -, hlen, hret⟩ := hpos hrest
      refine ⟨p ++ more, g3, hret, List.prefix_append p more, ?_⟩
      rw [List.length_append, Nat.cast_add, hlen]
      rw [max_eq_left (by omega)]
      omega
    · refine ⟨p, g2, hnon hrest, List.prefix_refl p, ?_⟩
      rw [max_eq_right (by omega)]

/-- C4 at `textHist` with every draw of raw value 3: index 0 is selected, the
valid prefix of "aaa" and "aad" is "aaa" and nothing is appended. -/
theorem randString_branches_witness :
    textHist.getRandomBoundIdx (Rand.const 3) = .ok (0, (Rand.const 3).advance) ∧
    ∃ s g3, textHist.randString (Rand.const 3) = .ok (s, g3) ∧ [97, 97, 97] <+: s ∧
      (s.length : Int) = max textHist.avgLen ([97, 97, 97] : List Nat).length :=
  ⟨rfl, ((randString_branches textHist (Rand.const 3) (Rand.const 3).advance 0 rfl).2 rfl
    ⟨0, [97, 97, 97]⟩ ⟨0, [97, 97, 100]⟩ [97, 97, 97] (Rand.const 3).advance.advance
    rfl rfl rfl).2.2⟩

/-! ## String order -/

theorem strLt_irrefl (a : List Nat) : strLt a a = false := by
  induction a with
  | nil => rfl
  | cons x xs ih => simp [strLt, ih]

/-- The order `strLt` is the lexicographic order of lists over `<`. -/
theorem strLt_iff_lex (a b : List Nat) : strLt a b = true ↔ List.Lex (· < ·) a b := by
  induction a generalizing b with
  | nil =>
    cases b with
    | nil => simp [strLt]
    | cons y ys => simp [strLt, List.Lex.nil]
  | cons x xs ih =>
    cases b with
    | nil => simp [strLt]
    | cons y ys =>
      simp only [strLt, List.Lex.cons_iff]
      rcases Nat.lt_trichotomy x y with hxy | hxy | hxy
      · simp [hxy, List.Lex.rel hxy]
      · subst hxy
        simp [ih, List.Lex.cons_iff]
      · have h1 : ¬ x < y := by omega
        have h2 : x ≠ y := by omega
        simp only [h1, hxy, if_true, if_false]
        constructor
        · intro h; cases h
        · intro h
          cases h with
          | cons h => exact absurd rfl h2
          | rel h => exact absurd h h1

theorem strLt_append_cons (pre t1 t2 : List Nat) (c u : Nat) (hcu : c < u) :
    strLt (pre ++ c :: t1) (pre ++ u :: t2) = true := by
  induction pre with
  | nil => simp [strLt, hcu]
  | cons x xs ih => simp [strLt, ih]

theorem strLe_append (a t : List Nat) : strLe a (a ++ t) = true := by
  induction a with
  | nil => cases t <;> simp [strLe, strLt]
  | cons x xs ih =>
    simp only [strLe, Bool.not_eq_true', List.cons_append, strLt, lt_self_iff_false,
      if_false] at ih ⊢
    exact ih

theorem strLe_append_cons (pre t : List Nat) (l c : Nat) (hlc : l ≤ c) :
    strLe (pre ++ [l]) (pre ++ c :: t) = true := by
  induction pre with
  | nil =>
    have h1 : ¬ c < l := by omega
    by_cases h2 : l < c <;> simp [strLe, strLt, h1, h2]
  | cons x xs ih =>
    simp only [strLe, Bool.not_eq_true', List.cons_append, strLt, lt_self_iff_false,
      if_false] at ih ⊢
    exact ih

/-- Two ordered strings: either the lower one is a prefix of the upper one, or
they share a prefix after which the lower one has the smaller byte. -/
theorem strLe_cases (lower upper : List Nat) (hle : strLe lower upper = true) :
    lower <+: upper ∨ ∃ pre l lt u ut,
      lower = pre ++ l :: lt ∧ upper = pre ++ u :: ut ∧ l < u := by
  induction lower generalizing upper with
  | nil => exact Or.inl (List.nil_prefix)
  | cons x xs ih =>
    cases upper with
    | nil => simp [strLe, strLt] at hle
    | cons y ys =>
      rcases Nat.lt_trichotomy x y with hxy | hxy | hxy
      · exact Or.inr ⟨[], x, xs, y, ys, rfl, rfl, hxy⟩
      · subst hxy
        have hle2 : strLe xs ys = true := by
          simpa [strLe, strLt] using hle
        rcases ih ys hle2 with hp | ⟨pre, l, lt, u, ut, h1, h2, h3⟩
        · exact Or.inl ((List.prefix_cons_inj x).mpr hp)
        · exact Or.inr ⟨x :: pre, l, lt, u, ut, by simp [h1], by simp [h2], h3⟩
      · simp [strLe, strLt, hxy] at hle

/-! ## getValidPrefix -/

theorem runeLen_ascii (b : Nat) (rest : List Nat) (hb : b < 0x80) : runeLen (b :: rest) = 1 := by
  simp [runeLen, hb]

theorem getD_append_cons (pre t : List Nat) (b : Nat) :
    (pre ++ b :: t).getD pre.length 0 = b := by
  induction pre with
  | nil => rfl
  | cons x xs ih => simpa using ih

/-- When `lower` is a prefix of `upper` the loop finds no differing byte at any
offset it visits and runs to its end, whatever the widths of the characters. -/
theorem getValidPrefixLoop_prefix (lower t : List Nat) (g : Rand) :
    ∀ (rest done : List Nat) (skip : Nat), lower = done ++ rest →
      getValidPrefixLoop lower (lower ++ t) rest done.length skip g = .ok (lower, g) := by
  intro rest
  induction rest with
  | nil => intro done skip _; cases skip <;> rfl
  | cons b rest ih =>
    intro done skip hsplit
    have hnext : lower = (done ++ [b]) ++ rest := by simp [hsplit]
    have hlen : (done ++ [b]).length = done.length + 1 := by simp
    cases skip with
    | succ k =>
      simp only [getValidPrefixLoop]
      rw [← hlen]
      exact ih (done ++ [b]) k hnext
    | zero =>
      have hlt : ¬ done.length ≥ (lower ++ t).length := by
        rw [hsplit]; simp
      have hsame : (lower ++ t).getD done.length 0 = b := by
        rw [hsplit]
        simpa using getD_append_cons done (rest ++ t) b
      simp only [getValidPrefixLoop, hlt, if_false, hsame, ne_eq, not_true_eq_false]
      rw [← hlen]
      exact ih (done ++ [b]) _ hnext

theorem getValidPrefix_extends (lower upper : List Nat) (g : Rand) (hp : lower <+: upper) :
    getValidPrefix lower upper g = .ok (lower, g) := by
  obtain ⟨t, rfl⟩ := hp
  exact getValidPrefixLoop_prefix lower t g lower [] 0 rfl

/-- C7. Identity case of `getValidPrefix`: `getValidPrefix(lower, lower)`
returns `lower` unchanged, without failing and leaving the random source
untouched; more generally so whenever `lower` is a prefix of `upper`. -/
theorem getValidPrefix_identity (lower : List Nat) (g : Rand) :
    getValidPrefix lower lower g = .ok (lower, g) ∧
    ∀ upper, lower <+: upper → getValidPrefix lower upper g = .ok (lower, g) :=
  ⟨getValidPrefix_extends lower lower g (List.prefix_refl lower),
    fun upper hp => getValidPrefix_extends lower upper g hp⟩

/-- C7 at "é" (bytes C3 A9) against itself and against "éa". -/
theorem getValidPrefix_identity_witness :
    getValidPrefix [0xC3, 0xA9] [0xC3, 0xA9] (Rand.const 7) = .ok ([0xC3, 0xA9], Rand.const 7) ∧
    getValidPrefix [0xC3, 0xA9] [0xC3, 0xA9, 0x61] (Rand.const 7) =
      .ok ([0xC3, 0xA9], Rand.const 7) :=
  ⟨(getValidPrefix_identity [0xC3, 0xA9] (Rand.const 7)).1,
   (getValidPrefix_identity [0xC3, 0xA9] (Rand.const 7)).2 [0xC3, 0xA9, 0x61]
     ⟨[0x61], rfl⟩⟩

/-- On a lower string whose bytes up to the first difference are single-byte
characters, the loop reaches the first differing byte and draws there. -/
theorem getValidPrefixLoop_diff (pre lt ut : List Nat) (l u : Nat) (g : Rand)
    (hascii : isASCII pre) (hne : l ≠ u) :
    ∀ (rest done : List Nat), pre = done ++ rest →
      getValidPrefixLoop (pre ++ l :: lt) (pre ++ u :: ut) (rest ++ l :: lt) done.length 0 g =
        (Intn (((u + 256 - l) % 256 : Nat) : Int) g).bind
          (fun kg => .ok (pre ++ [(kg.1.toNat % 256 + l) % 256], kg.2)) := by
  intro rest
  induction rest with
  | nil =>
    intro done hsplit
    simp only [List.append_nil] at hsplit
    subst hsplit
    have hlt : ¬ pre.length ≥ (pre ++ u :: ut).length := by simp
    simp only [List.nil_append, getValidPrefixLoop, hlt, if_false, getD_append_cons, ne_eq, hne,
      not_false_eq_true, if_true, List.take_left, bind, Except.bind]
    cases Intn (((u + 256 - l) % 256 : Nat) : Int) g with
    | error e => rfl
    | ok kg => rfl
  | cons b rest ih =>
    intro done hsplit
    have hnext : pre = (done ++ [b]) ++ rest := by simp [hsplit]
    have hlen : (done ++ [b]).length = done.length + 1 := by simp
    have hb : b < 0x80 := hascii b (by rw [hsplit]; simp)
    have hlt : ¬ done.length ≥ (pre ++ u :: ut).length := by
      rw [hsplit]; simp
    have hsame : (pre ++ u :: ut).getD done.length 0 = b := by
      rw [hsplit]
      simpa using getD_append_cons done (rest ++ u :: ut) b
    simp only [List.cons_append, getValidPrefixLoop, hlt, if_false, hsame, ne_eq,
      not_true_eq_false, runeLen_ascii b _ hb, Nat.sub_self]
    rw [← hlen]
    exact ih (done ++ [b]) hnext

/-- On single-byte characters, with `lower` and `upper` sharing `pre` and then
carrying bytes `l < u`, `getValidPrefix` returns `pre` followed by the byte
`l + k`, where `k` is the draw of `rand.Intn(u - l)`. -/
theorem getValidPrefix_diff (pre lt ut : List Nat) (l u : Nat) (g : Rand)
    (hascii : isASCII pre) (hlu : l < u) (hu : u < 256) :
    getValidPrefix (pre ++ l :: lt) (pre ++ u :: ut) g =
      .ok (pre ++ [l + g.peek % (u - l)], g.advance) := by
  unfold getValidPrefix
  have hloop := getValidPrefixLoop_diff pre lt ut l u g hascii (by omega) pre [] rfl
  simp only [List.length_nil] at hloop
  rw [hloop]
  have hn : (u + 256 - l) % 256 = u - l := by omega
  have hpos : ¬ (((u - l : Nat) : Int) ≤ 0) := by omega
  have hk : ((g.peek : Int) % ((u - l : Nat) : Int)).toNat = g.peek % (u - l) := by
    rw [← Int.natCast_mod, Int.toNat_natCast]
  have hlt := Nat.mod_lt g.peek (show 0 < u - l by omega)
  simp only [hn, Intn, hpos, if_false, Except.bind, hk]
  have hch : (g.peek % (u - l) % 256 + l) % 256 = l + g.peek % (u - l) := by omega
  rw [hch]

/-- C5. The prefix-ordering property fails on multi-byte characters: for
lower = "èa" (bytes C3 A8 61) and upper = "é" (bytes C3 A9), two byte strings
with lower <= upper that differ at byte 1, `for i := range lower` visits the
offsets 0 and 2 only, never compares byte 1, and at offset 2 runs past the end
of `upper`: the call ends in `log.Fatalf` and returns no string, whatever the
random source. -/
theorem getValidPrefix_multibyte_fatal (g : Rand) :
    isBytes [0xC3, 0xA8, 0x61] ∧ isBytes [0xC3, 0xA9] ∧
    strLe [0xC3, 0xA8, 0x61] [0xC3, 0xA9] = true ∧
    ([0xC3, 0xA8, 0x61] : List Nat).getD 1 0 ≠ ([0xC3, 0xA9] : List Nat).getD 1 0 ∧
    runeLen [0xC3, 0xA8, 0x61] = 2 ∧
    getValidPrefix [0xC3, 0xA8, 0x61] [0xC3, 0xA9] g = .error .fatal :=
  ⟨by decide, by decide, by decide, by decide, by decide, rfl⟩

/-- On single-byte characters the prefix-ordering property holds: for
lower <= upper that is not a prefix of upper, the call returns a string `p`
below `upper` that consists of the bytes of `lower` before the first differing
position and one byte `c` with `lower[i] <= c < upper[i]`. -/
theorem getValidPrefix_ascii_ordering (lower upper : List Nat) (g : Rand)
    (hascii : isASCII lower) (hbytes : isBytes upper)
    (hle : strLe lower upper = true) (hnp : ¬ lower <+: upper) :
    ∃ pre l lt u ut c, lower = pre ++ l :: lt ∧ upper = pre ++ u :: ut ∧
      l ≤ c ∧ c < u ∧ getValidPrefix lower upper g = .ok (pre ++ [c], g.advance) ∧
      strLt (pre ++ [c]) upper = true := by
  rcases strLe_cases lower upper hle with hp | ⟨pre, l, lt, u, ut, h1, h2, h3⟩
  · exact absurd hp hnp
  · have hpre : isASCII pre := fun b hb => hascii b (by rw [h1]; simp [hb])
    have hu : u < 256 := hbytes u (by rw [h2]; simp)
    have hmod := Nat.mod_lt g.peek (show 0 < u - l by omega)
    refine ⟨pre, l, lt, u, ut, l + g.peek % (u - l), h1, h2, by omega, by omega, ?_, ?_⟩
    · rw [h1, h2]
      exact getValidPrefix_diff pre lt ut l u g hpre h3 hu
    · rw [h2]
      exact strLt_append_cons pre [] ut _ u (by omega)

/-- C6, as stated, fails. With lower = upper = "a" the call returns "a", which
is not below `upper`; with lower = "ab", upper = "b" and the draw 0 the call
returns "a", which is below `lower`. -/
theorem getValidPrefix_not_within_bounds :
    (strLe [97] [97] = true ∧
      getValidPrefix [97] [97] (Rand.const 0) = .ok ([97], Rand.const 0) ∧
      [97] <+: [97] ∧ strLt [97] [97] = false) ∧
    (strLe [97, 98] [98] = true ∧
      getValidPrefix [97, 98] [98] (Rand.const 0) = .ok ([97], (Rand.const 0).advance) ∧
      [97] <+: [97] ∧ strLe [97, 98] [97] = false) :=
  ⟨⟨by decide, rfl, List.prefix_refl _, by decide⟩,
   ⟨by decide, rfl, List.prefix_refl _, by decide⟩⟩

/-- C6, amended. For strings lower <= upper of single-byte characters and every
state of the random source, `getValidPrefix` returns a string `p`, and every
string `s` that has `p` as a prefix is at least `lower` cut to the length of
`p`, and is below `upper` provided `lower` is not a prefix of `upper`. -/
theorem getValidPrefix_prefix_bounds (lower upper : List Nat) (g : Rand)
    (hascii : isASCII lower) (hbytes : isBytes upper) (hle : strLe lower upper = true) :
    ∃ p g1, getValidPrefix lower upper g = .ok (p, g1) ∧
      ∀ s, p <+: s → strLe (lower.take p.length) s = true ∧
        (¬ lower <+: upper → strLt s upper = true) := by
  by_cases hp : lower <+: upper
  · refine ⟨lower, g, getValidPrefix_extends lower upper g hp, ?_⟩
    rintro s ⟨t, rfl⟩
    refine ⟨?_, fun hnp => absurd hp hnp⟩
    rw [List.take_length]
    exact strLe_append lower t
  · obtain ⟨pre, l, lt, u, ut, c, h1, h2, hlc, hcu, hret, -⟩ :=
      getValidPrefix_ascii_ordering lower upper g hascii hbytes hle hp
    refine ⟨pre ++ [c], g.advance, hret, ?_⟩
    rintro s ⟨t, rfl⟩
    constructor
    · have htake : lower.take (pre ++ [c]).length = pre ++ [l] := by
        rw [h1]
        simp [List.take_append_eq_append_take]
      rw [htake, List.append_assoc]
      exact strLe_append_cons pre t l c hlc
    · intro _
      rw [h2, List.append_assoc]
      exact strLt_append_cons pre t ut c u hcu

/-- C6, amended, at lower = "aaa", upper = "aad". -/
theorem getValidPrefix_prefix_bounds_witness :
    ∃ p g1, getValidPrefix [97, 97, 97] [97, 97, 100] (Rand.const 5) = .ok (p, g1) ∧
      ∀ s, p <+: s → strLe (([97, 97, 97] : List Nat).take p.length) s = true ∧
        (¬ [97, 97, 97] <+: [97, 97, 100] → strLt s [97, 97, 100] = true) :=
  getValidPrefix_prefix_bounds [97, 97, 97] [97, 97, 100] (Rand.const 5)
    (by decide) (by decide) (by decide)

/-- When `upper` is a proper prefix of a `lower` of single-byte characters the
loop reaches the offset `len(upper)` and ends in `log.Fatalf`. -/
theorem getValidPrefixLoop_fatal (upper t : List Nat) (b : Nat) (g : Rand)
    (hascii : isASCII upper) :
    ∀ (rest done : List Nat), upper = done ++ rest →
      getValidPrefixLoop (upper ++ b :: t) upper (rest ++ b :: t) done.length 0 g =
        .error .fatal := by
  intro rest
  induction rest with
  | nil =>
    intro done hsplit
    simp only [List.append_nil] at hsplit
    subst hsplit
    simp [getValidPrefixLoop]
  | cons c rest ih =>
    intro done hsplit
    have hnext : upper = (done ++ [c]) ++ rest := by simp [hsplit]
    have hlen : (done ++ [c]).length = done.length + 1 := by simp
    have hc : c < 0x80 := hascii c (by rw [hsplit]; simp)
    have hlt : ¬ done.length ≥ upper.length := by
      rw [hsplit]; simp
    have hsame : upper.getD done.length 0 = c := by
      rw [hsplit]
      exact getD_append_cons done rest c
    simp only [List.cons_append, getValidPrefixLoop, hlt, if_false, hsame, ne_eq,
      not_true_eq_false, runeLen_ascii c _ hc, Nat.sub_self]
    rw [← hlen]
    exact ih (done ++ [c]) hnext

/-- C8, as stated, fails. lower = "ab" is longer than upper = "b", yet
lower <= upper holds and the call returns the string "a" (draw 0 of
`rand.Intn(1)`) instead of ending in the fatal error. -/
theorem getValidPrefix_returns_on_longer_lower :
    ([98] : List Nat).length < ([97, 98] : List Nat).length ∧
    strLe [97, 98] [98] = true ∧
    getValidPrefix [97, 98] [98] (Rand.const 0) = .ok ([97], (Rand.const 0).advance) :=
  ⟨by decide, by decide, rfl⟩

theorem strLt_append_right (upper t : List Nat) (b : Nat) :
    strLt upper (upper ++ b :: t) = true := by
  induction upper with
  | nil => rfl
  | cons x xs ih => simpa [strLt] using ih

/-- C8, amended. For strings of single-byte characters: where `upper` is a
proper prefix of `lower` (so `lower` is longer than `upper`, greater than it,
and no byte differs within the length of `upper`), `getValidPrefix` ends in the
fatal error and returns no string, whatever the random source; and a `lower`
that is longer than `upper` is not by itself an error: whenever lower <= upper
holds the call returns a string. -/
theorem getValidPrefix_fatal (lower upper : List Nat) (g : Rand) (hascii : isASCII lower) :
    (upper <+: lower → upper.length < lower.length →
      getValidPrefix lower upper g = .error .fatal ∧ strLt upper lower = true) ∧
    (isBytes upper → strLe lower upper = true →
      ∃ p g1, getValidPrefix lower upper g = .ok (p, g1)) := by
  constructor
  · intro hpre hlen
    obtain ⟨t, rfl⟩ := hpre
    cases t with
    | nil => simp at hlen
    | cons b t =>
      have hup : isASCII upper := fun c hc => hascii c (by simp [hc])
      exact ⟨getValidPrefixLoop_fatal upper t b g hup upper [] rfl,
        strLt_append_right upper t b⟩
  · intro hbytes hle
    by_cases hp : lower <+: upper
    · exact ⟨lower, g, getValidPrefix_extends lower upper g hp⟩
    · obtain ⟨pre, l, lt, u, ut, c, -, -, -, -, hret, -⟩ :=
        getValidPrefix_ascii_ordering lower upper g hascii hbytes hle hp
      exact ⟨_, _, hret⟩

/-- C8, amended, at lower = "abc", upper = "ab" (fatal) and at lower = "ab",
upper = "b" (a string is returned). -/
theorem getValidPrefix_fatal_witness :
    (getValidPrefix [97, 98, 99] [97, 98] (Rand.const 1) = .error .fatal ∧
      strLt [97, 98] [97, 98, 99] = true) ∧
    ∃ p g1, getValidPrefix [97, 98] [98] (Rand.const 0) = .ok (p, g1) :=
  ⟨(getValidPrefix_fatal [97, 98, 99] [97, 98] (Rand.const 1) (by decide)).1 ⟨[99], rfl⟩
      (by decide),
   (getValidPrefix_fatal [97, 98] [98] (Rand.const 0) (by decide)).2 (by decide) (by decide)⟩

/-! ## getAvgLen -/

theorem foldl_len_nonneg (rows : List Row) (init : Int) (hinit : 0 ≤ init) :
    0 ≤ rows.foldl (fun acc r => acc + (r.GetString.length : Int)) init := by
  induction rows generalizing init with
  | nil => exact hinit
  | cons r rest ih => exact ih _ (by positivity)

/-- C9, as stated, fails for the maximum 0: on the text histogram of the
end-to-end scenario `getAvgLen(0)` is 1, which is greater than the maximum. -/
theorem getAvgLen_zero_max :
    textHist.Bounds ≠ [] ∧ textHist.getAvgLen 0 = .ok 1 ∧ ¬ ((1 : Int) ≤ 0) :=
  ⟨by decide, rfl, by decide⟩

/-- C9, amended. For a histogram with at least one boundary string,
`getAvgLen(maxLen)` returns a value that is never 0, that is at most `maxLen`
for every `maxLen` other than 0, and that is 1 for `maxLen = 0`. -/
theorem getAvgLen_clamp (h : histogram) (maxLen : Int) (hne : h.Bounds ≠ []) :
    ∃ a, h.getAvgLen maxLen = .ok a ∧ a ≠ 0 ∧ (maxLen ≠ 0 → a ≤ maxLen) ∧
      (maxLen = 0 → a = 1) := by
  have hl : ¬ ((h.Bounds.length : Int) = 0) := by
    have := List.length_pos.mpr hne
    omega
  have havg : 0 ≤ Int.tdiv
      (h.Bounds.foldl (fun acc r => acc + (r.GetString.length : Int)) 0) h.Bounds.length :=
    Int.tdiv_nonneg (foldl_len_nonneg _ 0 (le_refl 0)) (Int.ofNat_nonneg _)
  simp only [histogram.getAvgLen, hl, if_false]
  refine ⟨_, rfl, ?_, ?_, ?_⟩
  · split_ifs <;> omega
  · intro hm
    split_ifs <;> omega
  · intro hm
    split_ifs <;> omega

/-- C9, amended, at the text histogram of the end-to-end scenario with the
maximum 2. -/
theorem getAvgLen_clamp_witness :
    ∃ a, textHist.getAvgLen 2 = .ok a ∧ a ≠ 0 ∧ ((2 : Int) ≠ 0 → a ≤ 2) ∧
      ((2 : Int) = 0 → a = 1) :=
  getAvgLen_clamp textHist 2 (by decide)

/-! ## Frequency of the exact-upper-bound outcome -/

theorem bucketAt_of_get (bs : List Bucket) (i : Nat) (b : Bucket)
    (hget : bs.get? i = some b) : bucketAt bs i = b := by
  unfold bucketAt
  rw [List.getD_eq_getElem?_getD, ← List.get?_eq_getElem?, hget]
  rfl

theorem get_bucketAt (bs : List Bucket) (i : Nat) (hi : i < bs.length) :
    bs.get? i = some (bucketAt bs i) := by
  cases hget : bs.get? i with
  | none => exact absurd hi (by simpa [List.get?_eq_none] using hget)
  | some b => rw [bucketAt_of_get bs i b hget]

theorem scanBuckets_none (r : Int) (bs : List Bucket) (k : Nat)
    (hall : ∀ b ∈ bs, b.Count < r) : scanBuckets r bs k = 0 := by
  induction bs generalizing k with
  | nil => rfl
  | cons b rest ih =>
    have hb : ¬ b.Count ≥ r := by
      have := hall b (by simp)
      omega
    simp only [scanBuckets, hb, if_false]
    exact ih (k + 1) (fun c hc => hall c (by simp [hc]))

theorem count_mono (bs : List Bucket) (total : Int) (hwf : wellFormedBuckets bs total)
    (j i : Nat) (hji : j ≤ i) (hi : i < bs.length) :
    (bucketAt bs j).Count ≤ (bucketAt bs i).Count := by
  obtain ⟨-, -, -, hstep, -⟩ := hwf
  induction i, hji using Nat.le_induction with
  | base => exact le_refl _
  | succ n _ ih =>
    have h1 := hstep (n + 1) hi
    simp only [prevCount, Nat.add_one_ne_zero, if_false, Nat.add_sub_cancel] at h1
    exact le_trans (ih (by omega)) h1

theorem count_nonneg (bs : List Bucket) (total : Int) (hwf : wellFormedBuckets bs total)
    (i : Nat) (hi : i < bs.length) : 0 ≤ (bucketAt bs i).Count := by
  have h0 := hwf.2.2.2.1 0 (by omega)
  simp only [prevCount, if_true] at h0
  exact le_trans h0 (count_mono bs total hwf 0 i (by omega) hi)

theorem count_le_total (bs : List Bucket) (total : Int) (hwf : wellFormedBuckets bs total)
    (i : Nat) (hi : i < bs.length) : (bucketAt bs i).Count ≤ total := by
  have hlast := hwf.1
  rw [List.getLast?_eq_getElem?, ← List.get?_eq_getElem?] at hlast
  rw [get_bucketAt bs (bs.length - 1) (by omega)] at hlast
  simp only [Option.map_some', Option.some.injEq] at hlast
  rw [← hlast]
  exact count_mono bs total hwf i (bs.length - 1) (by omega) (by omega)

/-- On a well-formed bucket sequence the scan returns `2*i+1` exactly for the
draws `r` above the count before bucket `i` (any `r >= 0` for the first
bucket), at most `Count(i)`, and at least `Count(i) - Repeat(i)`. -/
theorem scanBuckets_odd_iff (bs : List Bucket) (total : Int)
    (hwf : wellFormedBuckets bs total) (i : Nat) (hi : i < bs.length) (r : Int) :
    scanBuckets r bs 0 = 2 * i + 1 ↔
      ((i = 0 ∨ prevCount bs i < r) ∧ r ≤ (bucketAt bs i).Count ∧
        (bucketAt bs i).Count - (bucketAt bs i).Repeat ≤ r) := by
  have hsub : ∀ j, j < bs.length →
      subInt64 (bucketAt bs j).Count (bucketAt bs j).Repeat =
        (bucketAt bs j).Count - (bucketAt bs j).Repeat := by
    intro j hj
    apply subInt64_eq
    have h1 := hwf.2.2.1 j hj
    have h2 := hwf.2.2.2.2 j hj
    have h3 := hwf.2.2.2.1 j hj
    have h4 : 0 ≤ prevCount bs j := by
      unfold prevCount
      split
      · exact le_refl 0
      · exact count_nonneg bs total hwf (j - 1) (by omega)
    unfold isInt64 at h1 ⊢
    omega
  constructor
  · intro hscan
    by_cases hex : ∃ b ∈ bs, r ≤ b.Count
    · obtain ⟨i0, b0, hget, hge, hleast, hres⟩ := scanBuckets_least r bs 0 hex
      have hi0 : i0 < bs.length := by
        by_contra hcon
        have : bs.get? i0 = none := List.get?_eq_none.mpr (by omega)
        rw [this] at hget
        cases hget
      have hb0 : bucketAt bs i0 = b0 := bucketAt_of_get bs i0 b0 hget
      rw [hscan, ← hb0, hsub i0 hi0] at hres
      simp only [Nat.zero_add] at hres
      split at hres
      · omega
      · rename_i hnlt
        have hii : i = i0 := by omega
        subst hii
        rw [hb0]
        refine ⟨?_, hge, ?_⟩
        · rcases Nat.eq_zero_or_pos i with h0 | hpos
          · exact Or.inl h0
          · right
            have := hleast (i - 1) (bucketAt bs (i - 1)) (by omega)
              (get_bucketAt bs (i - 1) (by omega))
            simp only [prevCount, Nat.pos_iff_ne_zero.mp hpos, if_false]
            exact this
        · rw [hb0] at hnlt
          omega
    · have hall : ∀ b ∈ bs, b.Count < r := by
        intro b hb
        by_contra hcon
        exact hex ⟨b, hb, by omega⟩
      rw [scanBuckets_none r bs 0 hall] at hscan
      omega
  · rintro ⟨hprev, hle, hrep⟩
    have hmem : bucketAt bs i ∈ bs := List.get?_mem (get_bucketAt bs i hi)
    obtain ⟨i0, b0, hget, hge, hleast, hres⟩ :=
      scanBuckets_least r bs 0 ⟨bucketAt bs i, hmem, hle⟩
    have hi0 : i0 < bs.length := by
      by_contra hcon
      have : bs.get? i0 = none := List.get?_eq_none.mpr (by omega)
      rw [this] at hget
      cases hget
    have hb0 : bucketAt bs i0 = b0 := bucketAt_of_get bs i0 b0 hget
    have h1 : i0 ≤ i := by
      by_contra hcon
      have := hleast i (bucketAt bs i) (by omega) (get_bucketAt bs i hi)
      omega
    have h2 : i ≤ i0 := by
      by_contra hcon
      rcases hprev with h0 | hlt
      · omega
      · have hne : i ≠ 0 := by omega
        simp only [prevCount, hne, if_false] at hlt
        have := count_mono bs total hwf i0 (i - 1) (by omega) (by omega)
        rw [hb0] at this
        omega
    have hii : i0 = i := by omega
    subst hii
    rw [hres, ← hb0, hsub i0 hi0]
    have : ¬ r < (bucketAt bs i0).Count - (bucketAt bs i0).Repeat := by omega
    simp [this]

/-- C10, as stated, fails at its own witness: for the buckets (Count=10,
Repeat=2), (Count=20, Repeat=3) the draws 8, 9, 10 of the 21 draws of
`[0, 20]` are mapped to index 1 and the draws 17 to 20 to index 3, so the
frequencies are 3/21 and 4/21, not 2/20 and 3/20. -/
theorem upperBoundHits_not_repeat_fraction :
    wellFormedBuckets [⟨10, 2⟩, ⟨20, 3⟩] 20 ∧
    upperBoundHits [⟨10, 2⟩, ⟨20, 3⟩] 20 0 = 3 ∧
    upperBoundHits [⟨10, 2⟩, ⟨20, 3⟩] 20 1 = 4 ∧
    ((upperBoundHits [⟨10, 2⟩, ⟨20, 3⟩] 20 0 : ℚ) / (20 + 1) ≠ 2 / 20) ∧
    ((upperBoundHits [⟨10, 2⟩, ⟨20, 3⟩] 20 1 : ℚ) / (20 + 1) ≠ 3 / 20) := by
  have h0 : upperBoundHits [⟨10, 2⟩, ⟨20, 3⟩] 20 0 = 3 := by decide
  have h1 : upperBoundHits [⟨10, 2⟩, ⟨20, 3⟩] 20 1 = 4 := by decide
  refine ⟨by decide, h0, h1, ?_, ?_⟩
  · rw [h0]; norm_num
  · rw [h1]; norm_num

/-- C10, amended. On a well-formed bucket sequence (counts within `int64`,
cumulative counts non-decreasing from 0 to `total > 0`, and
`0 <= Repeat(i) <= Count(i) - Count(i-1)`), the number of draws `r` of
`[0, total]` mapped to `2*i+1` is `Repeat(0) + 1` for the first bucket and
`min(Repeat(i) + 1, Count(i) - Count(i-1))` for every later bucket; the
probability of that outcome under a uniform draw is this number over
`total + 1`. -/
theorem upperBoundHits_eq (bs : List Bucket) (total : Int)
    (hwf : wellFormedBuckets bs total) (i : Nat) (hi : i < bs.length) :
    (upperBoundHits bs total i : Int) =
      if i = 0 then (bucketAt bs 0).Repeat + 1
      else min ((bucketAt bs i).Repeat + 1) ((bucketAt bs i).Count - prevCount bs i) := by
  have hC0 := count_nonneg bs total hwf i hi
  have hCt := count_le_total bs total hwf i hi
  have hR := hwf.2.2.2.2 i hi
  have hP := hwf.2.2.2.1 i hi
  have hP0 : 0 ≤ prevCount bs i := by
    unfold prevCount
    split
    · exact le_refl 0
    · exact count_nonneg bs total hwf (i - 1) (by omega)
  have hset : ∀ lo : Int, 0 ≤ lo →
      (∀ r : Int, ((i = 0 ∨ prevCount bs i < r) ∧ (bucketAt bs i).Count - (bucketAt bs i).Repeat ≤ r)
        ↔ lo ≤ r) →
      (Finset.range (total + 1).toNat).filter
          (fun r : Nat => scanBuckets (r : Int) bs 0 = 2 * i + 1) =
        Finset.Icc lo.toNat (bucketAt bs i).Count.toNat := by
    intro lo hlo hiff
    ext r
    simp only [Finset.mem_filter, Finset.mem_range, Finset.mem_Icc,
      scanBuckets_odd_iff bs total hwf i hi]
    have := hiff (r : Int)
    constructor
    · rintro ⟨-, h1, h2, h3⟩
      have := this.mp ⟨h1, h3⟩
      omega
    · rintro ⟨h1, h2⟩
      have h3 := this.mpr (by omega)
      exact ⟨by omega, h3.1, by omega, h3.2⟩
  unfold upperBoundHits
  by_cases h0 : i = 0
  · subst h0
    simp only [prevCount, if_true] at hR hP
    rw [hset ((bucketAt bs 0).Count - (bucketAt bs 0).Repeat) (by omega)
      (fun r => ⟨fun h => h.2, fun h => ⟨Or.inl rfl, h⟩⟩)]
    simp only [Nat.card_Icc, if_true]
    omega
  · by_cases hcase : prevCount bs i + 1 ≤ (bucketAt bs i).Count - (bucketAt bs i).Repeat
    · rw [hset ((bucketAt bs i).Count - (bucketAt bs i).Repeat) (by omega)
        (fun r => ⟨fun h => h.2, fun h => ⟨Or.inr (by omega), h⟩⟩)]
      simp only [Nat.card_Icc, h0, if_false]
      rw [min_eq_left (by omega)]
      omega
    · rw [hset (prevCount bs i + 1) (by omega)
        (fun r => ⟨fun h => by rcases h.1 with h1 | h1 <;> omega,
          fun h => ⟨Or.inr (by omega), by omega⟩⟩)]
      simp only [Nat.card_Icc, h0, if_false]
      rw [min_eq_right (by omega)]
      omega

/-- C10, amended, at the buckets (Count=10, Repeat=2), (Count=20, Repeat=3)
and the second bucket: `min(3 + 1, 20 - 10) = 4` draws. -/
theorem upperBoundHits_eq_witness :
    wellFormedBuckets [⟨10, 2⟩, ⟨20, 3⟩] 20 ∧
    (upperBoundHits [⟨10, 2⟩, ⟨20, 3⟩] 20 1 : Int) = 4 :=
  ⟨by decide, upperBoundHits_eq [⟨10, 2⟩, ⟨20, 3⟩] 20 (by decide) 1 (by decide)⟩

/-! ## Bucket coverage -/

theorem count_mono_of_step (bs : List Bucket)
    (hmono : ∀ j, j + 1 < bs.length → (bucketAt bs j).Count ≤ (bucketAt bs (j + 1)).Count)
    (j i : Nat) (hji : j ≤ i) (hi : i < bs.length) :
    (bucketAt bs j).Count ≤ (bucketAt bs i).Count := by
  induction i, hji using Nat.le_induction with
  | base => exact le_refl _
  | succ n _ ih => exact le_trans (ih (by omega)) (hmono n hi)

/-- C11, as stated, fails. The buckets (Count=10, Repeat=2), (Count=10,
Repeat=0), (Count=20, Repeat=3) are non-empty with non-decreasing cumulative
counts and total 20 > 0, yet no draw selects the middle bucket: the scan never
returns 2 or 3. -/
theorem scanBuckets_skips_empty_bucket :
    wellFormedBuckets [⟨10, 2⟩, ⟨10, 0⟩, ⟨20, 3⟩] 20 ∧
    ∀ r : Int, scanBuckets r [⟨10, 2⟩, ⟨10, 0⟩, ⟨20, 3⟩] 0 ≠ 2 ∧
      scanBuckets r [⟨10, 2⟩, ⟨10, 0⟩, ⟨20, 3⟩] 0 ≠ 3 := by
  refine ⟨by decide, fun r => ?_⟩
  by_cases h10 : (10 : Int) ≥ r
  · simp only [scanBuckets, h10, if_true]
    constructor <;> split <;> omega
  · by_cases h20 : (20 : Int) ≥ r
    · simp only [scanBuckets, h10, h20, if_true, if_false]
      constructor <;> split <;> omega
    · simp [scanBuckets, h10, h20]

/-- On a non-empty bucket sequence with non-decreasing cumulative counts, a
bucket with a non-negative count above that of the bucket before it is selected
by the draw `r = Count(i)`. -/
theorem getRandomBoundIdx_selects (h : histogram) (last : Bucket) (i : Nat)
    (hlast : h.Buckets.getLast? = some last)
    (hmono : ∀ j, j + 1 < h.Buckets.length →
      (bucketAt h.Buckets j).Count ≤ (bucketAt h.Buckets (j + 1)).Count)
    (hi : i < h.Buckets.length)
    (hnonneg : 0 ≤ (bucketAt h.Buckets i).Count)
    (hstrict : i ≠ 0 → (bucketAt h.Buckets (i - 1)).Count < (bucketAt h.Buckets i).Count) :
    ∃ r g idx, 0 ≤ r ∧ r ≤ last.Count ∧
      randInt64 0 last.Count g = .ok (r, g.advance) ∧
      h.getRandomBoundIdx g = .ok (idx, g.advance) ∧ (idx = 2 * i ∨ idx = 2 * i + 1) := by
  have hlastAt : bucketAt h.Buckets (h.Buckets.length - 1) = last := by
    apply bucketAt_of_get
    rw [← hlast, List.getLast?_eq_getElem?, List.get?_eq_getElem?]
  have hle : (bucketAt h.Buckets i).Count ≤ last.Count := by
    rw [← hlastAt]
    exact count_mono_of_step h.Buckets hmono i _ (by omega) (by omega)
  have hdraw := randInt64_const 0 last.Count (bucketAt h.Buckets i).Count hnonneg hle
  simp only [sub_zero] at hdraw
  have hmem : bucketAt h.Buckets i ∈ h.Buckets := List.get?_mem (get_bucketAt h.Buckets i hi)
  obtain ⟨i0, b0, hget, hge, hleast, hscan⟩ :=
    scanBuckets_least (bucketAt h.Buckets i).Count h.Buckets 0 ⟨_, hmem, le_refl _⟩
  have hi0 : i0 < h.Buckets.length := by
    by_contra hcon
    have : h.Buckets.get? i0 = none := List.get?_eq_none.mpr (by omega)
    rw [this] at hget
    cases hget
  have hb0 : bucketAt h.Buckets i0 = b0 := bucketAt_of_get _ i0 b0 hget
  have h1 : i0 ≤ i := by
    by_contra hcon
    have := hleast i (bucketAt h.Buckets i) (by omega) (get_bucketAt h.Buckets i hi)
    omega
  have h2 : i ≤ i0 := by
    by_contra hcon
    have hs := hstrict (by omega)
    have := count_mono_of_step h.Buckets hmono i0 (i - 1) (by omega) (by omega)
    rw [hb0] at this
    omega
  have hii : i0 = i := by omega
  subst hii
  refine ⟨(bucketAt h.Buckets i0).Count, Rand.const (bucketAt h.Buckets i0).Count.toNat,
    scanBuckets (bucketAt h.Buckets i0).Count h.Buckets 0, hnonneg, hle, hdraw,
    getRandomBoundIdx_eq h _ _ last _ hlast hdraw, ?_⟩
  rw [hscan]
  simp only [Nat.zero_add]
  split
  · exact Or.inl rfl
  · exact Or.inr rfl

/-- A draw `r` of `[0, Count of the last bucket]` that makes the scan return
`2*i` or `2*i+1` lies above the count of the bucket before `i` and is at most
the count of bucket `i`. -/
theorem scanBuckets_selected_bounds (bs : List Bucket) (last : Bucket) (i : Nat) (r : Int)
    (hlast : bs.getLast? = some last) (hr1 : r ≤ last.Count) (hi : i < bs.length)
    (hsel : scanBuckets r bs 0 = 2 * i ∨ scanBuckets r bs 0 = 2 * i + 1) :
    r ≤ (bucketAt bs i).Count ∧ (i ≠ 0 → (bucketAt bs (i - 1)).Count < r) := by
  have _ := hi
  obtain ⟨i0, b0, hget, hge, hleast, hscan⟩ :=
    scanBuckets_least r bs 0 ⟨last, List.mem_of_getLast?_eq_some hlast, hr1⟩
  simp only [Nat.zero_add] at hscan
  have hii : i0 = i := by
    rw [hscan] at hsel
    split at hsel <;> omega
  subst hii
  rw [bucketAt_of_get bs i0 b0 hget]
  refine ⟨hge, fun hne => ?_⟩
  exact hleast (i0 - 1) (bucketAt bs (i0 - 1)) (by omega) (get_bucketAt bs (i0 - 1) (by omega))

/-- C11, amended. On a non-empty bucket sequence with non-decreasing cumulative
counts and total count > 0, a bucket `i` is selected by some draw `r` of
`[0, totalCount]` (the call returns `2*i` or `2*i+1`) if and only if its
cumulative count is not negative and, for `i >= 1`, is greater than that of the
bucket before it; in particular a bucket whose cumulative count equals that of
the bucket before it is never selected. -/
theorem getRandomBoundIdx_covers (h : histogram) (last : Bucket) (i : Nat)
    (hlast : h.Buckets.getLast? = some last)
    (hmono : ∀ j, j + 1 < h.Buckets.length →
      (bucketAt h.Buckets j).Count ≤ (bucketAt h.Buckets (j + 1)).Count)
    (htotal : 0 < last.Count) (hi : i < h.Buckets.length) :
    (∃ r g idx, 0 ≤ r ∧ r ≤ last.Count ∧
      randInt64 0 last.Count g = .ok (r, g.advance) ∧
      h.getRandomBoundIdx g = .ok (idx, g.advance) ∧ (idx = 2 * i ∨ idx = 2 * i + 1)) ↔
    (0 ≤ (bucketAt h.Buckets i).Count ∧
      (i ≠ 0 → (bucketAt h.Buckets (i - 1)).Count < (bucketAt h.Buckets i).Count)) := by
  have _ := htotal
  constructor
  · rintro ⟨r, g, idx, hr0, hr1, hdraw, hret, hidx⟩
    rw [getRandomBoundIdx_eq h g g.advance last r hlast hdraw] at hret
    simp only [Except.ok.injEq, Prod.mk.injEq, and_true] at hret
    rw [← hret] at hidx
    obtain ⟨hle, hprev⟩ := scanBuckets_selected_bounds h.Buckets last i r hlast hr1 hi hidx
    exact ⟨by omega, fun hne => by have := hprev hne; omega⟩
  · rintro ⟨hnonneg, hstrict⟩
    exact getRandomBoundIdx_selects h last i hlast hmono hi hnonneg hstrict

/-- C11, amended, at the buckets (Count=10, Repeat=2), (Count=10, Repeat=0),
(Count=20, Repeat=3): the last bucket (index 2) is selected by some draw, the
middle one (index 1) by none. -/
theorem getRandomBoundIdx_covers_witness :
    (∃ r g idx, (0 : Int) ≤ r ∧ r ≤ 20 ∧
      randInt64 0 20 g = .ok (r, g.advance) ∧
      (⟨[⟨10, 2⟩, ⟨10, 0⟩, ⟨20, 3⟩], [], none, 0⟩ : histogram).getRandomBoundIdx g =
        .ok (idx, g.advance) ∧ (idx = 2 * 2 ∨ idx = 2 * 2 + 1)) ∧
    ¬ (∃ r g idx, (0 : Int) ≤ r ∧ r ≤ 20 ∧
      randInt64 0 20 g = .ok (r, g.advance) ∧
      (⟨[⟨10, 2⟩, ⟨10, 0⟩, ⟨20, 3⟩], [], none, 0⟩ : histogram).getRandomBoundIdx g =
        .ok (idx, g.advance) ∧ (idx = 2 * 1 ∨ idx = 2 * 1 + 1)) :=
  ⟨(getRandomBoundIdx_covers ⟨[⟨10, 2⟩, ⟨10, 0⟩, ⟨20, 3⟩], [], none, 0⟩ ⟨20, 3⟩ 2 rfl
      (fun j hj => by
        have hj3 : j + 1 < 3 := hj
        have hj2 : j < 2 := by omega
        interval_cases j <;> decide)
      (by decide) (by decide)).mpr ⟨by decide, by decide⟩,
   fun hsel => absurd
    ((getRandomBoundIdx_covers ⟨[⟨10, 2⟩, ⟨10, 0⟩, ⟨20, 3⟩], [], none, 0⟩ ⟨20, 3⟩ 1 rfl
      (fun j hj => by
        have hj3 : j + 1 < 3 := hj
        have hj2 : j < 2 := by omega
        interval_cases j <;> decide)
      (by decide) (by decide)).mp hsel).2 (by decide)⟩

/-! ## decodeInt -/

/-- C12. `randInt` does not decode the boundaries of an index column. On the
index histogram `idxHist` (`index != nil`) the sibling `decodeInt` applies the
decoder to the bytes of the boundary and ends in `log.Fatal` when the decoder
fails, but `randInt` returns the raw `GetInt64(0)` of the boundary row,
360287970189639808, whatever the decoder would say about its bytes and
whatever the random source; in general its result is that of the same
histogram with `index = nil`. -/
theorem randInt_skips_decodeInt (g : Rand) :
    idxHist.index ≠ none ∧
    (∀ decode : List Nat → Option Int,
      idxHist.decodeInt decode ⟨360287970189639808, [0x80, 0, 0, 0, 0, 0, 0, 5]⟩ =
        match decode [0x80, 0, 0, 0, 0, 0, 0, 5] with
        | none => .error .fatal
        | some result => .ok result) ∧
    idxHist.randInt g = .ok (360287970189639808, g.advance) ∧
    (∀ h : histogram,
      h.randInt g = (⟨h.Buckets, h.Bounds, none, h.avgLen⟩ : histogram).randInt g) := by
  refine ⟨by decide, fun decode => rfl, ?_, fun h => rfl⟩
  have hdraw := randInt64_ok 0 10 g (by decide)
  obtain ⟨h0, h10, -⟩ := randInt64_bounds 0 10 _ g _ hdraw
  have hsel := getRandomBoundIdx_eq idxHist g g.advance ⟨10, 10⟩ _ rfl hdraw
  have hscan : scanBuckets (0 + (g.peek : Int) % (10 - 0 + 1)) idxHist.Buckets 0 = 1 := by
    have hsub : subInt64 10 10 = 0 := by decide
    have hnot : ¬ (0 : Int) > 0 + (g.peek : Int) % (10 - 0 + 1) := by omega
    simp only [idxHist, scanBuckets, ge_iff_le, h10, if_true, hsub, hnot, if_false]
  rw [hscan] at hsel
  exact randInt_odd idxHist g g.advance 1 ⟨360287970189639808, [0x80, 0, 0, 0, 0, 0, 0, 5]⟩
    hsel rfl rfl

/-! ## The fallback of getRandomBoundIdx and the range of its index -/

theorem scanBuckets_eq_loop (r : Int) (bs : List Bucket) (k : Nat) :
    scanBuckets r bs k = (scanBucketsLoop r bs k).getD 0 := by
  induction bs generalizing k with
  | nil => rfl
  | cons b rest ih =>
    simp only [scanBuckets, scanBucketsLoop]
    split
    · split <;> rfl
    · exact ih (k + 1)

theorem scanBucketsLoop_some (r : Int) (bs : List Bucket) (k : Nat)
    (hex : ∃ b ∈ bs, r ≤ b.Count) : ∃ idx, scanBucketsLoop r bs k = some idx := by
  induction bs generalizing k with
  | nil => simp at hex
  | cons b rest ih =>
    simp only [scanBucketsLoop]
    split
    · split <;> exact ⟨_, rfl⟩
    · rename_i hb
      obtain ⟨c, hc, hrc⟩ := hex
      rcases List.mem_cons.mp hc with rfl | hc
      · exact absurd hrc hb
      · exact ih (k + 1) ⟨c, hc, hrc⟩

/-- C13. The fallback of `getRandomBoundIdx` is unreachable on well-formed
input: on a non-empty bucket sequence and for a draw `r` with
`0 <= r <= Count` of the last bucket, some bucket has `Count >= r`, the loop
ends by a `return` inside it (never by running out of buckets), and that is
the value the call returns. -/
theorem getRandomBoundIdx_no_fallback (h : histogram) (last : Bucket) (r : Int)
    (hlast : h.Buckets.getLast? = some last) (hr0 : 0 ≤ r) (hr1 : r ≤ last.Count) :
    (∃ b ∈ h.Buckets, r ≤ b.Count) ∧
    ∃ idx, scanBucketsLoop r h.Buckets 0 = some idx ∧
      ∀ g g1, randInt64 0 last.Count g = .ok (r, g1) →
        h.getRandomBoundIdx g = .ok (idx, g1) := by
  have _ := hr0
  have hex : ∃ b ∈ h.Buckets, r ≤ b.Count :=
    ⟨last, List.mem_of_getLast?_eq_some hlast, hr1⟩
  obtain ⟨idx, hidx⟩ := scanBucketsLoop_some r h.Buckets 0 hex
  refine ⟨hex, idx, hidx, fun g g1 hdraw => ?_⟩
  rw [getRandomBoundIdx_eq h g g1 last r hlast hdraw, scanBuckets_eq_loop, hidx]
  rfl

/-- C13 at the buckets (Count=10, Repeat=2), (Count=20, Repeat=3) and the
draw 20, the largest one. -/
theorem getRandomBoundIdx_no_fallback_witness :
    (∃ b ∈ intHist.Buckets, (20 : Int) ≤ b.Count) ∧
    ∃ idx, scanBucketsLoop 20 intHist.Buckets 0 = some idx ∧
      ∀ g g1, randInt64 0 20 g = .ok (20, g1) →
        intHist.getRandomBoundIdx g = .ok (idx, g1) :=
  getRandomBoundIdx_no_fallback intHist ⟨20, 3⟩ 20 rfl (by decide) (by decide)

/-- C17. Boundary indexing is in range: with `n >= 1` buckets and exactly
`2*n` boundaries, for a draw `r` of `[0, Count of the last bucket]` the index
`idx` that `getRandomBoundIdx` returns is below `2*n`, an even `idx` has
`idx + 1` below `2*n` too, and so the reads `Bounds.GetRow(idx)` and, for an
even `idx`, `Bounds.GetRow(idx+1)` of `randInt` and `randString` find their
row. -/
theorem getRandomBoundIdx_in_range (h : histogram) (g g1 : Rand) (last : Bucket) (r : Int)
    (hlast : h.Buckets.getLast? = some last)
    (hlen : h.Bounds.length = 2 * h.Buckets.length)
    (hr0 : 0 ≤ r) (hr1 : r ≤ last.Count)
    (hdraw : randInt64 0 last.Count g = .ok (r, g1)) :
    ∃ idx, h.getRandomBoundIdx g = .ok (idx, g1) ∧
      idx < 2 * h.Buckets.length ∧ (idx % 2 = 0 → idx + 1 < 2 * h.Buckets.length) ∧
      (∃ row, GetRow h.Bounds idx = .ok row) ∧
      (idx % 2 = 0 → ∃ row, GetRow h.Bounds (idx + 1) = .ok row) := by
  have _ := hr0
  have _ := hr1
  have hne : h.Buckets ≠ [] := by
    intro hnil
    rw [hnil] at hlast
    cases hlast
  obtain ⟨hlt, hev⟩ := scanBuckets_range r h.Buckets 0 hne
  simp only [Nat.zero_add] at hlt hev
  refine ⟨_, getRandomBoundIdx_eq h g g1 last r hlast hdraw, hlt, hev, ?_, ?_⟩
  · obtain ⟨row, -, hrow⟩ := GetRow_lt h.Bounds (scanBuckets r h.Buckets 0) (by omega)
    exact ⟨row, hrow⟩
  · intro he
    obtain ⟨row, -, hrow⟩ :=
      GetRow_lt h.Bounds (scanBuckets r h.Buckets 0 + 1) (by have := hev he; omega)
    exact ⟨row, hrow⟩

/-- C17 at `intHist` and the draw 3. -/
theorem getRandomBoundIdx_in_range_witness :
    ∃ idx, intHist.getRandomBoundIdx (Rand.const 3) = .ok (idx, (Rand.const 3).advance) ∧
      idx < 2 * intHist.Buckets.length ∧
      (idx % 2 = 0 → idx + 1 < 2 * intHist.Buckets.length) ∧
      (∃ row, GetRow intHist.Bounds idx = .ok row) ∧
      (idx % 2 = 0 → ∃ row, GetRow intHist.Bounds (idx + 1) = .ok row) :=
  getRandomBoundIdx_in_range intHist (Rand.const 3) (Rand.const 3).advance ⟨20, 3⟩ 3 rfl rfl
    (by decide) (by decide) (randInt64_const 0 20 3 (by decide) (by decide))

/-! ## getAvgLen as a clamped mean -/

theorem foldl_len_eq_sum (rows : List Row) (init : Int) :
    rows.foldl (fun acc r => acc + (r.GetString.length : Int)) init =
      init + (rows.map (fun r => (r.GetString.length : Int))).sum := by
  induction rows generalizing init with
  | nil => simp
  | cons r rest ih =>
    simp only [List.foldl_cons, List.map_cons, List.sum_cons]
    rw [ih]
    omega

/-- C16. `getAvgLen` is the clamped integer mean: for a histogram with
`n >= 1` boundary strings and `maxLen >= 1`, `getAvgLen(maxLen)` returns
`max(1, min(floor((l_1 + ... + l_n) / n), maxLen))`, the sum ranging over the
strings of all rows of `Bounds`; the call yields this integer only, computed
from `Bounds` alone (two histograms with the same `Bounds` give the same
result, whatever their `avgLen`), and no histogram is written. -/
theorem getAvgLen_clamped_mean (h : histogram) (maxLen : Int)
    (hne : h.Bounds ≠ []) (hmax : 1 ≤ maxLen) :
    h.getAvgLen maxLen =
      .ok (max 1 (min
        ((h.Bounds.map (fun r => (r.GetString.length : Int))).sum / (h.Bounds.length : Int))
        maxLen)) ∧
    ∀ h2 : histogram, h2.Bounds = h.Bounds → h2.getAvgLen maxLen = h.getAvgLen maxLen := by
  constructor
  · have hl : ¬ ((h.Bounds.length : Int) = 0) := by
      have := List.length_pos.mpr hne
      omega
    have hsum : 0 ≤ (h.Bounds.map (fun r => (r.GetString.length : Int))).sum := by
      have := foldl_len_nonneg h.Bounds 0 (le_refl 0)
      rw [foldl_len_eq_sum] at this
      omega
    have hdiv : 0 ≤ (h.Bounds.map (fun r => (r.GetString.length : Int))).sum /
        (h.Bounds.length : Int) := Int.ediv_nonneg hsum (Int.ofNat_nonneg _)
    simp only [histogram.getAvgLen, hl, if_false, foldl_len_eq_sum, zero_add]
    rw [Int.tdiv_eq_ediv hsum (Int.ofNat_nonneg _)]
    congr 1
    simp only [max_def, min_def]
    split_ifs <;> omega
  · intro h2 hb
    simp only [histogram.getAvgLen, hb]

/-- C16 at the text histogram of the end-to-end scenario with the maximum 2:
the mean 12 / 4 = 3 is clamped to 2. -/
theorem getAvgLen_clamped_mean_witness :
    textHist.getAvgLen 2 =
      .ok (max 1 (min
        ((textHist.Bounds.map (fun r => (r.GetString.length : Int))).sum /
          (textHist.Bounds.length : Int)) 2)) ∧
    ∀ h2 : histogram, h2.Bounds = textHist.Bounds → h2.getAvgLen 2 = textHist.getAvgLen 2 :=
  getAvgLen_clamped_mean textHist 2 (by decide) (by decide)

/-! ## The end-to-end scenario -/

theorem randString_odd (h : histogram) (g g1 : Rand) (idx : Nat) (r : Row)
    (hsel : h.getRandomBoundIdx g = .ok (idx, g1)) (hodd : idx % 2 = 1)
    (hr : h.Bounds.get? idx = some r) : h.randString g = .ok (r.GetString, g1) := by
  have hne : ¬ idx % 2 = 0 := by omega
  simp [histogram.randString, hsel, bind, Except.bind, pure, Except.pure, hne,
    GetRow_eq_ok _ _ _ hr]

theorem randString_even_exact (h : histogram) (g g1 g2 : Rand) (idx : Nat) (lo up : Row)
    (p : List Nat) (hsel : h.getRandomBoundIdx g = .ok (idx, g1)) (heven : idx % 2 = 0)
    (hlo : h.Bounds.get? idx = some lo) (hup : h.Bounds.get? (idx + 1) = some up)
    (hp : getValidPrefix lo.GetString up.GetString g1 = .ok (p, g2))
    (hrest : ¬ h.avgLen - p.length > 0) : h.randString g = .ok (p, g2) := by
  simp [histogram.randString, hsel, bind, Except.bind, pure, Except.pure, heven,
    GetRow_eq_ok _ _ _ hlo, GetRow_eq_ok _ _ _ hup, hp, hrest]

/-- C14, as stated, fails. In the end-to-end scenario, when every draw has raw
value 3 the selector picks index 0 and `rand.Intn(3)` yields 0: `randString`
returns "aaa", which is neither "aad" nor "aaz" and whose third byte 97 is the
third byte of the lower bound itself, not a byte strictly above it. -/
theorem randString_scenario_lower_bound :
    textHist.getAvgLen 3 = .ok textHist.avgLen ∧
    textHist.getRandomBoundIdx (Rand.const 3) = .ok (0, (Rand.const 3).advance) ∧
    textHist.randString (Rand.const 3) =
      .ok ([97, 97, 97], (Rand.const 3).advance.advance) ∧
    ([97, 97, 97] : List Nat) ≠ [97, 97, 100] ∧ ([97, 97, 97] : List Nat) ≠ [97, 97, 122] ∧
    ¬ (([97, 97, 97] : List Nat).getD 2 0 < ([97, 97, 97] : List Nat).getD 2 0) :=
  ⟨rfl, rfl, rfl, by decide, by decide, by decide⟩

/-- C14, amended. In the end-to-end scenario (`avgLen = getAvgLen = 3`), for
every state of the random source `randString` returns a string, and that
string is exactly "aad" (selector index 1), exactly "aaz" (index 3), or "aa"
followed by a third byte `c` that is at least the third byte of the selected
bucket's lower bound and strictly below that of its upper bound:
`'a' <= c < 'd'` for bucket 0 (index 0), `'e' <= c < 'z'` for bucket 1
(index 2). -/
theorem randString_scenario (g : Rand) :
    textHist.getAvgLen 3 = .ok textHist.avgLen ∧
    ∃ idx g1 s g2, textHist.getRandomBoundIdx g = .ok (idx, g1) ∧
      textHist.randString g = .ok (s, g2) ∧
      ((idx = 1 ∧ s = [97, 97, 100]) ∨ (idx = 3 ∧ s = [97, 97, 122]) ∨
        (idx = 0 ∧ ∃ c, s = [97, 97, c] ∧ 97 ≤ c ∧ c < 100) ∨
        (idx = 2 ∧ ∃ c, s = [97, 97, c] ∧ 101 ≤ c ∧ c < 122)) := by
  refine ⟨rfl, ?_⟩
  have hdraw := randInt64_ok 0 20 g (by decide)
  obtain ⟨h0, h20, -⟩ := randInt64_bounds 0 20 _ g _ hdraw
  have hsel := getRandomBoundIdx_eq textHist g g.advance ⟨20, 3⟩ _ rfl hdraw
  generalize (0 : Int) + (g.peek : Int) % (20 - 0 + 1) = r at h0 h20 hsel
  have hsub1 : subInt64 10 2 = 8 := by decide
  have hsub2 : subInt64 20 3 = 17 := by decide
  have hmod3 := Nat.mod_lt g.advance.peek (show 0 < 100 - 97 by decide)
  have hmod21 := Nat.mod_lt g.advance.peek (show 0 < 122 - 101 by decide)
  by_cases h10 : (10 : Int) ≥ r
  · by_cases h8 : (8 : Int) > r
    · have hscan : scanBuckets r textHist.Buckets 0 = 0 := by
        simp only [textHist, scanBuckets, h10, if_true, hsub1, h8]
      rw [hscan] at hsel
      have hp := getValidPrefix_diff [97, 97] [] [] 97 100 g.advance (by decide) (by decide)
        (by decide)
      refine ⟨0, g.advance, _, _, hsel,
        randString_even_exact textHist g g.advance _ 0 ⟨0, [97, 97, 97]⟩ ⟨0, [97, 97, 100]⟩ _
          hsel rfl rfl rfl hp (by simp [textHist]), ?_⟩
      refine Or.inr (Or.inr (Or.inl ⟨rfl, 97 + g.advance.peek % (100 - 97), rfl, ?_, ?_⟩))
        <;> omega
    · have hscan : scanBuckets r textHist.Buckets 0 = 1 := by
        simp only [textHist, scanBuckets, h10, if_true, hsub1, h8, if_false]
      rw [hscan] at hsel
      exact ⟨1, g.advance, _, _, hsel,
        randString_odd textHist g g.advance 1 ⟨0, [97, 97, 100]⟩ hsel rfl rfl,
        Or.inl ⟨rfl, rfl⟩⟩
  · by_cases h17 : (17 : Int) > r
    · have hscan : scanBuckets r textHist.Buckets 0 = 2 := by
        simp only [textHist, scanBuckets, h10, if_false, ge_iff_le, h20, if_true, hsub2, h17]
      rw [hscan] at hsel
      have hp := getValidPrefix_diff [97, 97] [] [] 101 122 g.advance (by decide) (by decide)
        (by decide)
      refine ⟨2, g.advance, _, _, hsel,
        randString_even_exact textHist g g.advance _ 2 ⟨0, [97, 97, 101]⟩ ⟨0, [97, 97, 122]⟩ _
          hsel rfl rfl rfl hp (by simp [textHist]), ?_⟩
      refine Or.inr (Or.inr (Or.inr ⟨rfl, 101 + g.advance.peek % (122 - 101), rfl, ?_, ?_⟩))
        <;> omega
    · have hscan : scanBuckets r textHist.Buckets 0 = 3 := by
        simp only [textHist, scanBuckets, h10, if_false, ge_iff_le, h20, if_true, hsub2, h17]
      rw [hscan] at hsel
      exact ⟨3, g.advance, _, _, hsel,
        randString_odd textHist g g.advance 3 ⟨0, [97, 97, 122]⟩ hsel rfl rfl,
        Or.inr (Or.inl ⟨rfl, rfl⟩)⟩

/-! ## The cut of getValidPrefix, its failure condition and its draw -/

/-- On a lower string whose bytes before the first differing position `i` are
single-byte characters, `getValidPrefix` returns `lower[0:i]` followed by the
byte `lower[i] + k` modulo 256, where `k` is the draw of `rand.Intn` on
`upper[i] - lower[i]` modulo 256. -/
theorem getValidPrefix_cut (pre lt ut : List Nat) (l u : Nat) (g : Rand)
    (hascii : isASCII pre) (hl : l < 256) (hu : u < 256) (hne : l ≠ u) :
    getValidPrefix (pre ++ l :: lt) (pre ++ u :: ut) g =
      .ok (pre ++ [(g.peek % ((u + 256 - l) % 256) + l) % 256], g.advance) := by
  unfold getValidPrefix
  have hloop := getValidPrefixLoop_diff pre lt ut l u g hascii hne pre [] rfl
  simp only [List.length_nil] at hloop
  rw [hloop]
  have hn : 0 < (u + 256 - l) % 256 := by omega
  have hpos : ¬ ((((u + 256 - l) % 256 : Nat) : Int) ≤ 0) := by omega
  have hk : ((g.peek : Int) % (((u + 256 - l) % 256 : Nat) : Int)).toNat =
      g.peek % ((u + 256 - l) % 256) := by
    rw [← Int.natCast_mod, Int.toNat_natCast]
  have hlt := Nat.mod_lt g.peek hn
  simp only [Intn, hpos, if_false, Except.bind, hk]
  have hch : (g.peek % ((u + 256 - l) % 256) % 256 + l) % 256 =
      (g.peek % ((u + 256 - l) % 256) + l) % 256 := by omega
  rw [hch]

/-- C15. The cut at the first differing position fails on multi-byte
characters: for lower = "èa" (bytes C3 A8 61) and upper = "éa" (bytes
C3 A9 61) the least differing byte index is 1, but `for i := range lower`
visits the offsets 0 and 2 only, finds equal bytes at both and returns `lower`
unchanged: three bytes instead of `lower[0:1]` and one drawn byte, and no
draw is made. -/
theorem getValidPrefix_multibyte_no_cut (g : Rand) :
    isBytes [0xC3, 0xA8, 0x61] ∧ isBytes [0xC3, 0xA9, 0x61] ∧
    ([0xC3, 0xA8, 0x61] : List Nat).getD 0 0 = ([0xC3, 0xA9, 0x61] : List Nat).getD 0 0 ∧
    ([0xC3, 0xA8, 0x61] : List Nat).getD 1 0 ≠ ([0xC3, 0xA9, 0x61] : List Nat).getD 1 0 ∧
    runeLen [0xC3, 0xA8, 0x61] = 2 ∧
    getValidPrefix [0xC3, 0xA8, 0x61] [0xC3, 0xA9, 0x61] g = .ok ([0xC3, 0xA8, 0x61], g) ∧
    ([0xC3, 0xA8, 0x61] : List Nat).length ≠ 1 + 1 :=
  ⟨by decide, by decide, by decide, by decide, by decide, rfl, by decide⟩

/-- Two strings: the first is a prefix of the second, or the second is a proper
prefix of the first, or they differ at a position inside both. -/
theorem prefix_trichotomy (a b : List Nat) :
    a <+: b ∨ (∃ c t, a = b ++ c :: t) ∨
      ∃ pre l lt u ut, a = pre ++ l :: lt ∧ b = pre ++ u :: ut ∧ l ≠ u := by
  induction a generalizing b with
  | nil => exact Or.inl List.nil_prefix
  | cons x xs ih =>
    cases b with
    | nil => exact Or.inr (Or.inl ⟨x, xs, rfl⟩)
    | cons y ys =>
      by_cases hxy : x = y
      · subst hxy
        rcases ih ys with hp | ⟨c, t, h1⟩ | ⟨pre, l, lt, u, ut, h1, h2, h3⟩
        · exact Or.inl ((List.prefix_cons_inj x).mpr hp)
        · exact Or.inr (Or.inl ⟨c, t, by simp [h1]⟩)
        · exact Or.inr (Or.inr ⟨x :: pre, l, lt, u, ut, by simp [h1], by simp [h2], h3⟩)
      · exact Or.inr (Or.inr ⟨[], x, xs, y, ys, rfl, rfl, hxy⟩)

/-- C18. Exact failure condition of `getValidPrefix` on strings of single-byte
(ASCII) characters: the call ends in the fatal error if and only if `upper` is
a proper prefix of `lower`; in every other case (a differing byte inside both
strings, whatever their order and lengths, or `lower` a prefix of `upper`) it
returns a string. -/
theorem getValidPrefix_fatal_iff (lower upper : List Nat) (g : Rand)
    (hl : isASCII lower) (hu : isASCII upper) :
    (getValidPrefix lower upper g = .error .fatal ↔
      (upper <+: lower ∧ upper.length < lower.length)) ∧
    (¬ (upper <+: lower ∧ upper.length < lower.length) →
      ∃ p g1, getValidPrefix lower upper g = .ok (p, g1)) := by
  rcases prefix_trichotomy lower upper with hp | ⟨c, t, h1⟩ | ⟨pre, l, lt, u, ut, h1, h2, h3⟩
  · have hret := getValidPrefix_extends lower upper g hp
    have hnot : ¬ (upper <+: lower ∧ upper.length < lower.length) := by
      rintro ⟨-, hlen⟩
      have := hp.length_le
      omega
    refine ⟨⟨fun hf => ?_, fun hc => absurd hc hnot⟩, fun _ => ⟨lower, g, hret⟩⟩
    rw [hret] at hf
    cases hf
  · subst h1
    have hfatal : getValidPrefix (upper ++ c :: t) upper g = .error .fatal :=
      getValidPrefixLoop_fatal upper t c g hu upper [] rfl
    have hyes : upper <+: upper ++ c :: t ∧ upper.length < (upper ++ c :: t).length :=
      ⟨List.prefix_append upper _, by simp⟩
    exact ⟨⟨fun _ => hyes, fun _ => hfatal⟩, fun hc => absurd hyes hc⟩
  · subst h1 h2
    have hpre : isASCII pre := fun b hb => hl b (by simp [hb])
    have hlb : l < 256 := by
      have := hl l (by simp)
      omega
    have hub : u < 256 := by
      have := hu u (by simp)
      omega
    have hret := getValidPrefix_cut pre lt ut l u g hpre hlb hub h3
    have hnot : ¬ (pre ++ u :: ut <+: pre ++ l :: lt ∧
        (pre ++ u :: ut).length < (pre ++ l :: lt).length) := by
      rintro ⟨⟨s, hs⟩, -⟩
      rw [List.append_assoc, List.append_cancel_left_eq, List.cons_append] at hs
      exact h3 (List.cons.inj hs).1.symm
    refine ⟨⟨fun hf => ?_, fun hc => absurd hc hnot⟩, fun _ => ⟨_, _, hret⟩⟩
    rw [hret] at hf
    cases hf

/-- C18 at lower = "b", upper = "a": lower > upper with a differing byte inside
both strings, and the call returns a string. -/
theorem getValidPrefix_fatal_iff_witness :
    (getValidPrefix [98] [97] (Rand.const 200) = .error .fatal ↔
      (([97] : List Nat) <+: [98] ∧ ([97] : List Nat).length < ([98] : List Nat).length)) ∧
    (¬ (([97] : List Nat) <+: [98] ∧ ([97] : List Nat).length < ([98] : List Nat).length) →
      ∃ p g1, getValidPrefix [98] [97] (Rand.const 200) = .ok (p, g1)) :=
  getValidPrefix_fatal_iff [98] [97] (Rand.const 200) (by decide) (by decide)

theorem getD_lt_of_isBytes (s : List Nat) (i : Nat) (hs : isBytes s) : s.getD i 0 < 256 := by
  induction s generalizing i with
  | nil => simp
  | cons x xs ih =>
    cases i with
    | zero => simpa using hs x (by simp)
    | succ i => simpa using ih i (fun b hb => hs b (by simp [hb]))

/-- The bound passed to `rand.Intn` for two different bytes is positive, so the
draw succeeds. -/
theorem Intn_byte_diff (b u : Nat) (g : Rand) (hb : b < 256) (hu : u < 256) (hne : b ≠ u) :
    1 ≤ (u + 256 - b) % 256 ∧ (u + 256 - b) % 256 ≤ 255 ∧
    Intn (((u + 256 - b) % 256 : Nat) : Int) g =
      .ok (((g.peek % ((u + 256 - b) % 256) : Nat) : Int), g.advance) := by
  have hn : 1 ≤ (u + 256 - b) % 256 := by omega
  have hpos : ¬ ((((u + 256 - b) % 256 : Nat) : Int) ≤ 0) := by omega
  refine ⟨hn, by omega, ?_⟩
  have hk : (g.peek : Int) % (((u + 256 - b) % 256 : Nat) : Int) =
      ((g.peek % ((u + 256 - b) % 256) : Nat) : Int) := (Int.natCast_mod _ _).symm
  unfold Intn
  rw [if_neg hpos, hk]

/-- On byte strings no step of the loop of `getValidPrefix` panics. -/
theorem getValidPrefixLoop_no_panic (lower upper : List Nat) (g : Rand)
    (hu : isBytes upper) :
    ∀ (rest : List Nat) (i skip : Nat), isBytes rest →
      getValidPrefixLoop lower upper rest i skip g ≠ .error .panic := by
  intro rest
  induction rest with
  | nil =>
    intro i skip _ hcon
    cases skip <;> cases hcon
  | cons b rest ih =>
    intro i skip hrest
    have hrest2 : isBytes rest := fun c hc => hrest c (by simp [hc])
    cases skip with
    | succ k =>
      simp only [getValidPrefixLoop]
      exact ih (i + 1) k hrest2
    | zero =>
      simp only [getValidPrefixLoop]
      split
      · intro hcon; cases hcon
      · split
        · rename_i hne
          have hb : b < 256 := hrest b (by simp)
          obtain ⟨-, -, hdraw⟩ :=
            Intn_byte_diff b (upper.getD i 0) g hb (getD_lt_of_isBytes upper i hu) hne
          rw [hdraw]
          intro hcon
          cases hcon
        · exact ih (i + 1) _ hrest2

/-- C19. The random character draw of `getValidPrefix` is well defined. On byte
strings the call never panics; and wherever the loop reaches the differing
branch at offset `i` (`lower[i] = b`, `b != upper[i]`), the bound
`upper[i] - b` modulo 256 passed to `rand.Intn` lies in `[1, 255]`, the draw
succeeds with some `k` below that bound, the loop returns `lower[0:i]` followed
by `b + k` modulo 256, and when `b < upper[i]` the sum `b + k` does not wrap:
it is below `upper[i]`, hence below 256. -/
theorem getValidPrefix_draw_well_defined (lower upper : List Nat) (g : Rand)
    (hl : isBytes lower) (hu : isBytes upper) :
    getValidPrefix lower upper g ≠ .error .panic ∧
    ∀ (rest : List Nat) (b i : Nat) (g0 : Rand),
      b < 256 → i < upper.length → b ≠ upper.getD i 0 →
      1 ≤ (upper.getD i 0 + 256 - b) % 256 ∧ (upper.getD i 0 + 256 - b) % 256 ≤ 255 ∧
      (∃ k : Nat, k < (upper.getD i 0 + 256 - b) % 256 ∧
        Intn (((upper.getD i 0 + 256 - b) % 256 : Nat) : Int) g0 = .ok ((k : Int), g0.advance) ∧
        getValidPrefixLoop lower upper (b :: rest) i 0 g0 =
          .ok (lower.take i ++ [(k + b) % 256], g0.advance) ∧
        (b < upper.getD i 0 → (k + b) % 256 = b + k ∧ b + k < upper.getD i 0)) := by
  refine ⟨getValidPrefixLoop_no_panic lower upper g hu lower 0 0 hl, ?_⟩
  intro rest b i g0 hb hi hne
  have hub := getD_lt_of_isBytes upper i hu
  obtain ⟨h1, h2, hdraw⟩ := Intn_byte_diff b (upper.getD i 0) g0 hb hub hne
  have hk := Nat.mod_lt g0.peek (show 0 < (upper.getD i 0 + 256 - b) % 256 by omega)
  refine ⟨h1, h2, g0.peek % ((upper.getD i 0 + 256 - b) % 256), hk, hdraw, ?_, ?_⟩
  · have hlt : ¬ i ≥ upper.length := by omega
    simp only [getValidPrefixLoop, hlt, if_false, ne_eq, hne, not_false_eq_true, if_true,
      hdraw, bind, Except.bind, pure, Except.pure, Int.toNat_natCast]
    have hch : (g0.peek % ((upper.getD i 0 + 256 - b) % 256) % 256 + b) % 256 =
        (g0.peek % ((upper.getD i 0 + 256 - b) % 256) + b) % 256 := by omega
    rw [hch]
  · intro hlt
    have hn : (upper.getD i 0 + 256 - b) % 256 = upper.getD i 0 - b := by omega
    rw [hn] at hk ⊢
    omega

/-- C19 at lower = "b", upper = "a", where `upper[0] - lower[0]` wraps to 255. -/
theorem getValidPrefix_draw_well_defined_witness :
    getValidPrefix [98] [97] (Rand.const 200) ≠ .error .panic ∧
    ∀ (rest : List Nat) (b i : Nat) (g0 : Rand),
      b < 256 → i < ([97] : List Nat).length → b ≠ ([97] : List Nat).getD i 0 →
      1 ≤ (([97] : List Nat).getD i 0 + 256 - b) % 256 ∧
      (([97] : List Nat).getD i 0 + 256 - b) % 256 ≤ 255 ∧
      (∃ k : Nat, k < (([97] : List Nat).getD i 0 + 256 - b) % 256 ∧
        Intn (((([97] : List Nat).getD i 0 + 256 - b) % 256 : Nat) : Int) g0 =
          .ok ((k : Int), g0.advance) ∧
        getValidPrefixLoop [98] [97] (b :: rest) i 0 g0 =
          .ok (([98] : List Nat).take i ++ [(k + b) % 256], g0.advance) ∧
        (b < ([97] : List Nat).getD i 0 →
          (k + b) % 256 = b + k ∧ b + k < ([97] : List Nat).getD i 0)) :=
  getValidPrefix_draw_well_defined [98] [97] (Rand.const 200) (by decide) (by decide)

end Importer
